import Mathlib

set_option maxHeartbeats 1000000

/-!
Shallow embedding of the lrulist package (src/lrulist.go).

The Go structure uses heap pointers between nodes of a circular doubly
linked list.  We embed the heap as an arena: a list of nodes, where a node
identifier is an index into that list and the Go pointer fields prev/next
become node identifiers.  The Go map cacheMap becomes an association list
whose keys are unique by construction, so its length is the Go map length.
A nil head pointer becomes the value none of an Option over identifiers.
Dereferencing nil, or following a dangling identifier, makes an operation
return none (the run crashes); normal completion returns some of the
result, the trace of values passed to the eviction callback, and the
post-state.  The eviction callback stored at construction time is passed
to Set explicitly, since it is only ever read there; a nil callback is the
value none.  Every tuple assignment in the Go source is translated with
the Go evaluation order: all right-hand sides and left-hand target
addresses are read first, then the writes happen left to right.
-/

namespace LRUListSpec

variable {K V E : Type} [DecidableEq K]

/-- A node of the circular doubly linked list: LRUListNode in the source,
with prev and next as arena identifiers instead of pointers. -/
structure LRUListNode (K V : Type) where
  key : K
  val : V
  prev : Nat
  next : Nat
deriving DecidableEq

/-- The whole store: LRUList in the source.  cap is the Go int capacity,
cacheMap the key-to-node mapping, nodes the arena holding every node
allocated so far, and cache the head identifier (none = nil).  The lock
only serialises calls and the callback field is only read by Set, so
neither is part of the embedded state. -/
structure LRUList (K V : Type) where
  cap : Int
  cacheMap : List (K × Nat)
  nodes : List (LRUListNode K V)
  cache : Option Nat
deriving DecidableEq

/-- NewLRUList from the source: no guard on cap, empty map, nil head. -/
def NewLRUList (cap : Int) : LRUList K V :=
  { cap := cap, cacheMap := [], nodes := [], cache := none }

/-- Lookup in the embedded Go map. -/
def mapLookup (m : List (K × Nat)) (k : K) : Option Nat :=
  match m with
  | [] => none
  | p :: rest => if p.1 = k then some p.2 else mapLookup rest k

/-- Removal of a key from the embedded Go map (delete in the source). -/
def mapDelete (m : List (K × Nat)) (k : K) : List (K × Nat) :=
  match m with
  | [] => []
  | p :: rest => if p.1 = k then mapDelete rest k else p :: mapDelete rest k

/-- Insertion or overwrite in the embedded Go map (m[k] = i). -/
def mapInsert (m : List (K × Nat)) (k : K) (i : Nat) : List (K × Nat) :=
  (k, i) :: mapDelete m k

/-- Write through a node identifier: a store to a field of nodes[i].
Out-of-range identifiers leave the arena unchanged; every write the
operations perform is through an identifier that was just read, so on
well-formed states this is exactly the Go pointer store. -/
def modifyNode (nodes : List (LRUListNode K V)) (i : Nat)
    (f : LRUListNode K V → LRUListNode K V) : List (LRUListNode K V) :=
  match nodes[i]? with
  | some nd => nodes.set i (f nd)
  | none => nodes

/-- The splice-to-front primitive shared by Set and Get on a hit when the
node is not already the head (source lines 44-47 and 99-102): unlink the
node, relink it immediately before the head, and point the previous tail
at it.  h is the current head identifier, i the node being promoted. -/
def spliceToFront (nodes : List (LRUListNode K V)) (h i : Nat) :
    Option (List (LRUListNode K V)) :=
  match nodes[i]? with
  | none => none
  | some it =>
    let ns1 := modifyNode nodes it.prev (fun nd => { nd with next := it.next })
    let ns2 := modifyNode ns1 it.next (fun nd => { nd with prev := it.prev })
    match ns2[h]? with
    | none => none
    | some hn =>
      let ns3 := modifyNode ns2 i (fun nd => { nd with prev := hn.prev, next := h })
      match ns3[h]? with
      | none => none
      | some hn2 =>
        let ns4 := modifyNode ns3 hn2.prev (fun nd => { nd with next := i })
        some (modifyNode ns4 h (fun nd => { nd with prev := i }))

/-- Set from the source.  The result is none when the Go code would
dereference nil; otherwise some of the returned error (if any), the list
of values handed to the eviction callback during the call, and the
post-state. -/
def Set (l : LRUList K V) (evict : Option (V → Except E Unit)) (key : K) (val : V) :
    Option (Except E Unit × List V × LRUList K V) :=
  match mapLookup l.cacheMap key with
  | some i =>
    if l.cache = some i then
      some (.ok (), [], { l with
        nodes := modifyNode l.nodes i (fun nd => { nd with val := val }) })
    else
      match l.cache with
      | none => none
      | some h =>
        match spliceToFront l.nodes h i with
        | none => none
        | some nodes2 =>
          some (.ok (), [], { l with
            nodes := modifyNode nodes2 i (fun nd => { nd with val := val }),
            cache := some i })
  | none =>
    if (l.cacheMap.length : Int) < l.cap then
      let i := l.nodes.length
      match l.cache with
      | none =>
        some (.ok (), [], { l with
          cacheMap := mapInsert l.cacheMap key i,
          nodes := l.nodes ++ [⟨key, val, i, i⟩],
          cache := some i })
      | some h =>
        match l.nodes[h]? with
        | none => none
        | some hn =>
          let ns1 := l.nodes ++ [⟨key, val, hn.prev, h⟩]
          let ns2 := modifyNode ns1 hn.prev (fun nd => { nd with next := i })
          some (.ok (), [], { l with
            cacheMap := mapInsert l.cacheMap key i,
            nodes := modifyNode ns2 h (fun nd => { nd with prev := i }),
            cache := some i })
    else
      match l.cache with
      | none => none
      | some h =>
        match l.nodes[h]? with
        | none => none
        | some hn =>
          let h2 := hn.prev
          match l.nodes[h2]? with
          | none => none
          | some nd2 =>
            let l2 : LRUList K V := { l with cache := some h2 }
            let finish : LRUList K V := { l2 with
              cacheMap := mapInsert (mapDelete l2.cacheMap nd2.key) key h2,
              nodes := modifyNode l2.nodes h2
                (fun nd => { nd with key := key, val := val }) }
            match evict with
            | some f =>
              match f nd2.val with
              | .error e => some (.error e, [nd2.val], l2)
              | .ok () => some (.ok (), [nd2.val], finish)
            | none => some (.ok (), [], finish)

/-- Get from the source.  The Go error value built by fmt.Errorf for a
miss carries no data the caller inspects, so it is embedded as the error
of an Except over Unit. -/
def Get (l : LRUList K V) (key : K) : Option (Except Unit V × LRUList K V) :=
  match mapLookup l.cacheMap key with
  | some i =>
    if l.cache = some i then
      match l.nodes[i]? with
      | none => none
      | some nd => some (.ok nd.val, l)
    else
      match l.cache with
      | none => none
      | some h =>
        match spliceToFront l.nodes h i with
        | none => none
        | some nodes2 =>
          match nodes2[i]? with
          | none => none
          | some nd => some (.ok nd.val, { l with nodes := nodes2, cache := some i })
  | none => some (.error (), l)

/-- The loop of Traverse (source lines 124-130), with fuel: the Go loop
terminates on every well-formed state after at most the cycle length many
steps, and the fuel Traverse passes is strictly larger, so running out of
fuel (result none) only happens on states the Go loop never reaches. -/
def traverseLoop (nodes : List (LRUListNode K V)) (visit : V → Except E Unit)
    (h : Nat) : Nat → Nat → Option (Except E Unit × List V)
  | _, 0 => none
  | cur, fuel + 1 =>
    if cur = h then some (.ok (), [])
    else
      match nodes[cur]? with
      | none => none
      | some nd =>
        match visit nd.val with
        | .error e => some (.error e, [nd.val])
        | .ok () =>
          match traverseLoop nodes visit h nd.next fuel with
          | none => none
          | some (r, tr) => some (r, nd.val :: tr)

/-- Traverse from the source.  The method performs no store to the
receiver, so the returned state is the input state; the second component
records the values passed to visit, in order. -/
def Traverse (l : LRUList K V) (visit : V → Except E Unit) :
    Option (Except E Unit × List V × LRUList K V) :=
  match l.cache with
  | none => some (.ok (), [], l)
  | some h =>
    match l.nodes[h]? with
    | none => none
    | some hn =>
      match visit hn.val with
      | .error e => some (.error e, [hn.val], l)
      | .ok () =>
        match traverseLoop l.nodes visit h hn.next (l.nodes.length + 1) with
        | none => none
        | some (r, tr) => some (r, hn.val :: tr, l)

/-- The next identifier stored in node a, when a is live. -/
def nodeNext? (nodes : List (LRUListNode K V)) (a : Nat) : Option Nat :=
  (nodes[a]?).map (·.next)

/-- The prev identifier stored in node a, when a is live. -/
def nodePrev? (nodes : List (LRUListNode K V)) (a : Nat) : Option Nat :=
  (nodes[a]?).map (·.prev)

/-- The key stored in node a, when a is live. -/
def nodeKey? (nodes : List (LRUListNode K V)) (a : Nat) : Option K :=
  (nodes[a]?).map (·.key)

/-- The key and value stored in node a, when a is live. -/
def nodeKeyVal? (nodes : List (LRUListNode K V)) (a : Nat) : Option (K × V) :=
  (nodes[a]?).map (fun nd => (nd.key, nd.val))

/-- Node a points forward at node b and node b points back at node a. -/
def linkedTo (nodes : List (LRUListNode K V)) (a b : Nat) : Bool :=
  decide (nodeNext? nodes a = some b) && decide (nodePrev? nodes b = some a)

/-- The identifiers of xs are linked in order, and the last one is linked
to z; an empty xs states nothing. -/
def chainB (nodes : List (LRUListNode K V)) : List Nat → Nat → Bool
  | [], _ => true
  | x :: xs, z => linkedTo nodes x (xs.headD z) && chainB nodes xs z

/-- The identifiers of ids form one circular doubly linked cycle in order,
starting and ending at the head of ids. -/
def isCycle (nodes : List (LRUListNode K V)) (ids : List Nat) : Bool :=
  chainB nodes ids (ids.headD 0)

/-- The embedded map is exactly the key-to-identifier graph of the cycle:
every binding points into ids at a node carrying its key, every node of
the cycle is found by looking up its key, keys are unique, and the map has
one binding per cycle slot. -/
def mapMatches (m : List (K × Nat)) (nodes : List (LRUListNode K V))
    (ids : List Nat) : Bool :=
  m.all (fun p => decide (p.2 ∈ ids) && decide (nodeKey? nodes p.2 = some p.1))
  && ids.all (fun j =>
      decide ((nodes[j]?).bind (fun nd => mapLookup m nd.key) = some j))
  && decide (m.map Prod.fst).Nodup
  && decide (m.length = ids.length)

/-- The representation invariant of a store, relative to the list ids of
node identifiers in most-recently-used-first order: the head field is the
first identifier, identifiers are distinct and live, they form a single
cycle, and the map mirrors them. -/
def reprB (l : LRUList K V) (ids : List Nat) : Bool :=
  decide (l.cache = ids.head?) && decide ids.Nodup
  && ids.all (fun j => decide (j < l.nodes.length))
  && isCycle l.nodes ids
  && mapMatches l.cacheMap l.nodes ids

/-- The abstract content of the store in most-recently-used-first order. -/
def absList (nodes : List (LRUListNode K V)) (ids : List Nat) : List (K × V) :=
  ids.filterMap (fun j => nodeKeyVal? nodes j)

/-- The abstract values of the store in most-recently-used-first order. -/
def absVals (nodes : List (LRUListNode K V)) (ids : List Nat) : List V :=
  ids.filterMap (fun j => (nodes[j]?).map (·.val))

/-- Reference behavior of a traversal over a value sequence, following the
specification of Traverse: visit each value in order, stop at the first
callback failure and propagate it; the second component is the list of
visited values. -/
def visitSpec (visit : V → Except E Unit) : List V → Except E Unit × List V
  | [] => (.ok (), [])
  | v :: vs =>
    match visit v with
    | .error e => (.error e, [v])
    | .ok () =>
      let p := visitSpec visit vs
      (p.1, v :: p.2)

/-- The states a store can be in after its construction followed by any
finite sequence of completed Set, Get and Traverse calls. -/
inductive Reachable : LRUList K V → Prop where
  | new (cap : Int) : Reachable (NewLRUList cap)
  | set {l l' : LRUList K V} {E : Type} (ev : Option (V → Except E Unit))
      (key : K) (val : V) (r : Except E Unit) (tr : List V) :
      Reachable l → Set l ev key val = some (r, tr, l') → Reachable l'
  | get {l l' : LRUList K V} (key : K) (r : Except Unit V) :
      Reachable l → Get l key = some (r, l') → Reachable l'
  | trav {l l' : LRUList K V} {E : Type} (visit : V → Except E Unit)
      (r : Except E Unit) (tr : List V) :
      Reachable l → Traverse l visit = some (r, tr, l') → Reachable l'

/-- Concrete example store over Nat keys and values: the state reached
from NewLRUList 2 by Set 10 1 (one slot, key 10 in a one-element cycle). -/
def exStep1 : LRUList Nat Nat :=
  { cap := 2, cacheMap := [(10, 0)], nodes := [⟨10, 1, 0, 0⟩], cache := some 0 }

/-- Concrete example store at capacity: the state reached from
NewLRUList 2 by Set 10 1 and Set 20 2 (most recently used first: key 20 in
slot 1, then key 10 in slot 0). -/
def exState : LRUList Nat Nat :=
  { cap := 2, cacheMap := [(20, 1), (10, 0)],
    nodes := [⟨10, 1, 1, 1⟩, ⟨20, 2, 0, 0⟩], cache := some 1 }

/-- An eviction callback that always reports failure. -/
def failEv : Nat → Except Unit Unit := fun _ => Except.error ()

/-- An eviction callback that always succeeds. -/
def okEv : Nat → Except Unit Unit := fun _ => Except.ok ()

/-! Basic facts about the embedded map. -/

theorem mapLookup_eq_none_iff (m : List (K × Nat)) (k : K) :
    mapLookup m k = none ↔ ∀ p ∈ m, p.1 ≠ k := by
  induction m with
  | nil => simp [mapLookup]
  | cons q rest ih =>
    by_cases hq : q.1 = k <;> simp [mapLookup, hq, ih]

theorem mapLookup_mem {m : List (K × Nat)} {k : K} {i : Nat}
    (h : mapLookup m k = some i) : (k, i) ∈ m := by
  induction m with
  | nil => simp [mapLookup] at h
  | cons q rest ih =>
    by_cases hq : q.1 = k
    · rw [mapLookup, if_pos hq] at h
      injection h with h2
      have hqe : (k, i) = q := Prod.ext hq.symm h2.symm
      rw [hqe]
      exact List.mem_cons_self q rest
    · rw [mapLookup, if_neg hq] at h
      exact List.mem_cons_of_mem _ (ih h)

theorem mem_mapDelete {m : List (K × Nat)} {k : K} {p : K × Nat}
    (h : p ∈ mapDelete m k) : p ∈ m ∧ p.1 ≠ k := by
  induction m with
  | nil => exact absurd h (List.not_mem_nil p)
  | cons q rest ih =>
    by_cases hq : q.1 = k
    · rw [mapDelete, if_pos hq] at h
      exact ⟨List.mem_cons_of_mem _ (ih h).1, (ih h).2⟩
    · rw [mapDelete, if_neg hq] at h
      rcases List.mem_cons.mp h with rfl | h2
      · exact ⟨List.mem_cons_self p rest, hq⟩
      · exact ⟨List.mem_cons_of_mem _ (ih h2).1, (ih h2).2⟩

theorem mapDelete_eq_self {m : List (K × Nat)} {k : K}
    (h : mapLookup m k = none) : mapDelete m k = m := by
  rw [mapLookup_eq_none_iff] at h
  induction m with
  | nil => rfl
  | cons q rest ih =>
    have hq : q.1 ≠ k := h q (List.mem_cons_self q rest)
    rw [mapDelete, if_neg hq, ih (fun p hp => h p (List.mem_cons_of_mem q hp))]

theorem mapLookup_delete_self (m : List (K × Nat)) (k : K) :
    mapLookup (mapDelete m k) k = none := by
  induction m with
  | nil => rfl
  | cons q rest ih =>
    by_cases hq : q.1 = k
    · rw [mapDelete, if_pos hq]; exact ih
    · rw [mapDelete, if_neg hq, mapLookup, if_neg hq]; exact ih

theorem mapLookup_delete_ne (m : List (K × Nat)) {k k' : K} (h : k' ≠ k) :
    mapLookup (mapDelete m k) k' = mapLookup m k' := by
  induction m with
  | nil => rfl
  | cons q rest ih =>
    by_cases hq : q.1 = k
    · have hq' : ¬ q.1 = k' := by rw [hq]; exact fun hh => h hh.symm
      rw [mapDelete, if_pos hq, mapLookup, if_neg hq', ih]
    · rw [mapDelete, if_neg hq, mapLookup, mapLookup]
      by_cases hq2 : q.1 = k'
      · rw [if_pos hq2, if_pos hq2]
      · rw [if_neg hq2, if_neg hq2, ih]

theorem mapLookup_insert_self (m : List (K × Nat)) (k : K) (i : Nat) :
    mapLookup (mapInsert m k i) k = some i := by
  simp [mapInsert, mapLookup]

theorem mapLookup_insert_ne (m : List (K × Nat)) {k k' : K} (i : Nat) (h : k' ≠ k) :
    mapLookup (mapInsert m k i) k' = mapLookup m k' := by
  have hne : ¬ k = k' := fun hh => h hh.symm
  rw [mapInsert, mapLookup, if_neg hne, mapLookup_delete_ne m h]

theorem nodup_fst_mapDelete {m : List (K × Nat)} (k : K)
    (h : (m.map Prod.fst).Nodup) : ((mapDelete m k).map Prod.fst).Nodup := by
  induction m with
  | nil => exact h
  | cons q rest ih =>
    simp only [List.map_cons, List.nodup_cons] at h
    by_cases hq : q.1 = k
    · rw [mapDelete, if_pos hq]; exact ih h.2
    · rw [mapDelete, if_neg hq]
      simp only [List.map_cons, List.nodup_cons]
      refine ⟨?_, ih h.2⟩
      simp only [List.mem_map]
      rintro ⟨p, hp, hpk⟩
      exact h.1 (List.mem_map.mpr ⟨p, (mem_mapDelete hp).1, hpk⟩)

theorem nodup_fst_mapInsert {m : List (K × Nat)} (k : K) (i : Nat)
    (h : (m.map Prod.fst).Nodup) : ((mapInsert m k i).map Prod.fst).Nodup := by
  rw [mapInsert]
  simp only [List.map_cons, List.nodup_cons]
  refine ⟨?_, nodup_fst_mapDelete k h⟩
  simp only [List.mem_map]
  rintro ⟨p, hp, hpk⟩
  exact (mem_mapDelete hp).2 hpk

theorem length_mapDelete_of_lookup {m : List (K × Nat)} {k : K} {i : Nat}
    (hnd : (m.map Prod.fst).Nodup) (h : mapLookup m k = some i) :
    (mapDelete m k).length + 1 = m.length := by
  induction m with
  | nil => simp [mapLookup] at h
  | cons q rest ih =>
    simp only [List.map_cons, List.nodup_cons] at hnd
    by_cases hq : q.1 = k
    · have hrest : mapLookup rest k = none := by
        rw [mapLookup_eq_none_iff]
        intro p hp hpk
        exact hnd.1 (List.mem_map.mpr ⟨p, hp, by rw [hpk, hq]⟩)
      rw [mapDelete, if_pos hq, mapDelete_eq_self hrest, List.length_cons]
    · rw [mapLookup, if_neg hq] at h
      rw [mapDelete, if_neg hq, List.length_cons, List.length_cons,
        ih hnd.2 h]

/-! Facts about node writes. -/

theorem length_modifyNode (nodes : List (LRUListNode K V)) (m : Nat)
    (f : LRUListNode K V → LRUListNode K V) :
    (modifyNode nodes m f).length = nodes.length := by
  unfold modifyNode
  cases hm : nodes[m]? with
  | none => rfl
  | some nd => simp

theorem getElem?_modifyNode (nodes : List (LRUListNode K V)) (m : Nat)
    (f : LRUListNode K V → LRUListNode K V) (j : Nat) :
    (modifyNode nodes m f)[j]? = if j = m then (nodes[m]?).map f else nodes[j]? := by
  unfold modifyNode
  cases hm : nodes[m]? with
  | none =>
    by_cases hj : j = m <;> simp [hj, hm]
  | some nd =>
    have hmlt : m < nodes.length := by
      by_contra hge
      rw [List.getElem?_eq_none (Nat.le_of_not_lt hge)] at hm
      exact Option.noConfusion hm
    by_cases hj : j = m
    · subst hj
      simp [List.getElem?_set_self hmlt, hm]
    · simp [List.getElem?_set_ne (fun hh => hj hh.symm), hj]

theorem isSome_getElem? {nodes : List (LRUListNode K V)} {m : Nat}
    (hm : m < nodes.length) : ∃ nd, nodes[m]? = some nd := by
  rw [List.getElem?_eq_getElem hm]
  exact ⟨nodes[m], rfl⟩

theorem lt_length_of_getElem? {nodes : List (LRUListNode K V)} {m : Nat}
    {nd : LRUListNode K V} (hm : nodes[m]? = some nd) : m < nodes.length := by
  by_contra hge
  rw [List.getElem?_eq_none (Nat.le_of_not_lt hge)] at hm
  exact Option.noConfusion hm

theorem nodeNext?_modify_of_next_const {nodes : List (LRUListNode K V)} {m x : Nat}
    {f : LRUListNode K V → LRUListNode K V} (hm : m < nodes.length)
    (hf : ∀ nd, (f nd).next = x) (j : Nat) :
    nodeNext? (modifyNode nodes m f) j = if j = m then some x else nodeNext? nodes j := by
  unfold nodeNext?
  rw [getElem?_modifyNode]
  by_cases hj : j = m
  · obtain ⟨nd, hnd⟩ := isSome_getElem? hm
    simp [hj, hnd, hf]
  · simp [hj]

theorem nodeNext?_modify_of_next_id {nodes : List (LRUListNode K V)} {m : Nat}
    {f : LRUListNode K V → LRUListNode K V}
    (hf : ∀ nd, (f nd).next = nd.next) (j : Nat) :
    nodeNext? (modifyNode nodes m f) j = nodeNext? nodes j := by
  unfold nodeNext?
  rw [getElem?_modifyNode]
  by_cases hj : j = m
  · subst hj
    cases hnd : nodes[j]? <;> simp [hf]
  · simp [hj]

theorem nodePrev?_modify_of_prev_const {nodes : List (LRUListNode K V)} {m y : Nat}
    {f : LRUListNode K V → LRUListNode K V} (hm : m < nodes.length)
    (hf : ∀ nd, (f nd).prev = y) (j : Nat) :
    nodePrev? (modifyNode nodes m f) j = if j = m then some y else nodePrev? nodes j := by
  unfold nodePrev?
  rw [getElem?_modifyNode]
  by_cases hj : j = m
  · obtain ⟨nd, hnd⟩ := isSome_getElem? hm
    simp [hj, hnd, hf]
  · simp [hj]

theorem nodePrev?_modify_of_prev_id {nodes : List (LRUListNode K V)} {m : Nat}
    {f : LRUListNode K V → LRUListNode K V}
    (hf : ∀ nd, (f nd).prev = nd.prev) (j : Nat) :
    nodePrev? (modifyNode nodes m f) j = nodePrev? nodes j := by
  unfold nodePrev?
  rw [getElem?_modifyNode]
  by_cases hj : j = m
  · subst hj
    cases hnd : nodes[j]? <;> simp [hf]
  · simp [hj]

theorem nodeKeyVal?_modify_of_id {nodes : List (LRUListNode K V)} {m : Nat}
    {f : LRUListNode K V → LRUListNode K V}
    (hf : ∀ nd, (f nd).key = nd.key ∧ (f nd).val = nd.val) (j : Nat) :
    nodeKeyVal? (modifyNode nodes m f) j = nodeKeyVal? nodes j := by
  unfold nodeKeyVal?
  rw [getElem?_modifyNode]
  by_cases hj : j = m
  · subst hj
    cases hnd : nodes[j]? with
    | none => simp
    | some nd => simp [(hf nd).1, (hf nd).2]
  · simp [hj]

theorem nodeNext?_modify_set_next {nodes : List (LRUListNode K V)} {m : Nat} (x : Nat)
    (hm : m < nodes.length) (j : Nat) :
    nodeNext? (modifyNode nodes m (fun nd => { nd with next := x })) j =
      if j = m then some x else nodeNext? nodes j := by
  refine nodeNext?_modify_of_next_const hm ?_ j
  intro nd
  rfl

theorem nodeNext?_modify_set_prev {nodes : List (LRUListNode K V)} {m : Nat} (y : Nat)
    (j : Nat) :
    nodeNext? (modifyNode nodes m (fun nd => { nd with prev := y })) j =
      nodeNext? nodes j := by
  refine nodeNext?_modify_of_next_id ?_ j
  intro nd
  rfl

theorem nodePrev?_modify_set_prev {nodes : List (LRUListNode K V)} {m : Nat} (y : Nat)
    (hm : m < nodes.length) (j : Nat) :
    nodePrev? (modifyNode nodes m (fun nd => { nd with prev := y })) j =
      if j = m then some y else nodePrev? nodes j := by
  refine nodePrev?_modify_of_prev_const hm ?_ j
  intro nd
  rfl

theorem nodePrev?_modify_set_next {nodes : List (LRUListNode K V)} {m : Nat} (x : Nat)
    (j : Nat) :
    nodePrev? (modifyNode nodes m (fun nd => { nd with next := x })) j =
      nodePrev? nodes j := by
  refine nodePrev?_modify_of_prev_id ?_ j
  intro nd
  rfl

theorem nodeNext?_modify_set_pn {nodes : List (LRUListNode K V)} {m : Nat} (y x : Nat)
    (hm : m < nodes.length) (j : Nat) :
    nodeNext? (modifyNode nodes m (fun nd => { nd with prev := y, next := x })) j =
      if j = m then some x else nodeNext? nodes j := by
  refine nodeNext?_modify_of_next_const hm ?_ j
  intro nd
  rfl

theorem nodePrev?_modify_set_pn {nodes : List (LRUListNode K V)} {m : Nat} (y x : Nat)
    (hm : m < nodes.length) (j : Nat) :
    nodePrev? (modifyNode nodes m (fun nd => { nd with prev := y, next := x })) j =
      if j = m then some y else nodePrev? nodes j := by
  refine nodePrev?_modify_of_prev_const hm ?_ j
  intro nd
  rfl

theorem nodeKeyVal?_modify_set_next {nodes : List (LRUListNode K V)} {m : Nat} (x : Nat)
    (j : Nat) :
    nodeKeyVal? (modifyNode nodes m (fun nd => { nd with next := x })) j =
      nodeKeyVal? nodes j := by
  refine nodeKeyVal?_modify_of_id ?_ j
  intro nd
  exact ⟨rfl, rfl⟩

theorem nodeKeyVal?_modify_set_prev {nodes : List (LRUListNode K V)} {m : Nat} (y : Nat)
    (j : Nat) :
    nodeKeyVal? (modifyNode nodes m (fun nd => { nd with prev := y })) j =
      nodeKeyVal? nodes j := by
  refine nodeKeyVal?_modify_of_id ?_ j
  intro nd
  exact ⟨rfl, rfl⟩

theorem nodeKeyVal?_modify_set_pn {nodes : List (LRUListNode K V)} {m : Nat} (y x : Nat)
    (j : Nat) :
    nodeKeyVal? (modifyNode nodes m (fun nd => { nd with prev := y, next := x })) j =
      nodeKeyVal? nodes j := by
  refine nodeKeyVal?_modify_of_id ?_ j
  intro nd
  exact ⟨rfl, rfl⟩

theorem nodeNext?_modify_set_val {nodes : List (LRUListNode K V)} {m : Nat} (v : V)
    (j : Nat) :
    nodeNext? (modifyNode nodes m (fun nd => { nd with val := v })) j =
      nodeNext? nodes j := by
  refine nodeNext?_modify_of_next_id ?_ j
  intro nd
  rfl

theorem nodePrev?_modify_set_val {nodes : List (LRUListNode K V)} {m : Nat} (v : V)
    (j : Nat) :
    nodePrev? (modifyNode nodes m (fun nd => { nd with val := v })) j =
      nodePrev? nodes j := by
  refine nodePrev?_modify_of_prev_id ?_ j
  intro nd
  rfl

theorem nodeNext?_modify_set_kv {nodes : List (LRUListNode K V)} {m : Nat} (k : K) (v : V)
    (j : Nat) :
    nodeNext? (modifyNode nodes m (fun nd => { nd with key := k, val := v })) j =
      nodeNext? nodes j := by
  refine nodeNext?_modify_of_next_id ?_ j
  intro nd
  rfl

theorem nodePrev?_modify_set_kv {nodes : List (LRUListNode K V)} {m : Nat} (k : K) (v : V)
    (j : Nat) :
    nodePrev? (modifyNode nodes m (fun nd => { nd with key := k, val := v })) j =
      nodePrev? nodes j := by
  refine nodePrev?_modify_of_prev_id ?_ j
  intro nd
  rfl

/-! Facts about link chains. -/

theorem headD_append (xs ys : List Nat) (z : Nat) :
    (xs ++ ys).headD z = xs.headD (ys.headD z) := by
  cases xs <;> cases ys <;> simp

theorem chainB_append (nodes : List (LRUListNode K V)) (xs ys : List Nat) (z : Nat) :
    chainB nodes (xs ++ ys) z = (chainB nodes xs (ys.headD z) && chainB nodes ys z) := by
  induction xs with
  | nil => simp [chainB]
  | cons x xs ih =>
    rw [List.cons_append]
    show (linkedTo nodes x ((xs ++ ys).headD z) && chainB nodes (xs ++ ys) z) = _
    rw [ih, headD_append]
    show _ = ((linkedTo nodes x (xs.headD (ys.headD z)) && chainB nodes xs (ys.headD z))
      && chainB nodes ys z)
    rw [Bool.and_assoc]

theorem linkedTo_congr {nodes nodes' : List (LRUListNode K V)} {a b : Nat}
    (hnext : nodeNext? nodes' a = nodeNext? nodes a)
    (hprev : nodePrev? nodes' b = nodePrev? nodes b) :
    linkedTo nodes' a b = linkedTo nodes a b := by
  simp [linkedTo, hnext, hprev]

theorem chainB_congr {nodes nodes' : List (LRUListNode K V)} {xs : List Nat} {z : Nat}
    (hnext : ∀ a ∈ xs, nodeNext? nodes' a = nodeNext? nodes a)
    (hprev : ∀ b ∈ xs.tail, nodePrev? nodes' b = nodePrev? nodes b)
    (hz : nodePrev? nodes' z = nodePrev? nodes z) :
    chainB nodes' xs z = chainB nodes xs z := by
  induction xs with
  | nil => rfl
  | cons x xs ih =>
    simp only [chainB]
    have h1 : linkedTo nodes' x (xs.headD z) = linkedTo nodes x (xs.headD z) := by
      refine linkedTo_congr (hnext x (List.mem_cons_self x xs)) ?_
      cases xs with
      | nil => exact hz
      | cons y ys => exact hprev y (List.mem_cons_self y ys)
    rw [h1, ih (fun a ha => hnext a (List.mem_cons_of_mem x ha))
      (fun b hb => hprev (b := b) (by
        cases xs with
        | nil => exact absurd hb (List.not_mem_nil b)
        | cons y ys => exact List.mem_cons_of_mem y hb))]

theorem chainB_isSome {nodes : List (LRUListNode K V)} {xs : List Nat} {z : Nat}
    (h : chainB nodes xs z = true) : ∀ a ∈ xs, (nodes[a]?).isSome := by
  induction xs with
  | nil => intro a ha; exact absurd ha (List.not_mem_nil a)
  | cons x xs ih =>
    simp only [chainB, Bool.and_eq_true] at h
    intro a ha
    rcases List.mem_cons.mp ha with rfl | ha2
    · have := h.1
      simp only [linkedTo, Bool.and_eq_true, decide_eq_true_eq, nodeNext?] at this
      obtain ⟨h1, _⟩ := this
      cases hx : nodes[a]? with
      | none => rw [hx] at h1; simp at h1
      | some nd => rfl
    · exact ih h.2 a ha2

theorem chainB_lt_length {nodes : List (LRUListNode K V)} {xs : List Nat} {z : Nat}
    (h : chainB nodes xs z = true) : ∀ a ∈ xs, a < nodes.length := by
  intro a ha
  have := chainB_isSome h a ha
  by_contra hge
  rw [List.getElem?_eq_none (Nat.le_of_not_lt hge)] at this
  exact Bool.noConfusion this

/-- Closed form of the splice-to-front primitive: the write sequence of the
source succeeds on live identifiers, keeps every key and value in place,
and rewires exactly the next fields of the old tail-to-be, the promoted
node and its old predecessor, and the prev fields of the old head, the
promoted node and its old successor. -/
theorem spliceToFront_spec (nodes : List (LRUListNode K V)) {h i : Nat}
    {it hn0 : LRUListNode K V}
    (hit : nodes[i]? = some it) (hh0 : nodes[h]? = some hn0) (hih : i ≠ h)
    (hpb : it.prev < nodes.length) (hnb : it.next < nodes.length)
    (hhpb : hn0.prev < nodes.length) :
    ∃ ns, spliceToFront nodes h i = some ns ∧
      ns.length = nodes.length ∧
      (∀ j, nodeKeyVal? ns j = nodeKeyVal? nodes j) ∧
      (∀ j, nodeNext? ns j =
        if j = (if it.next = h then it.prev else hn0.prev) then some i
        else if j = i then some h
        else if j = it.prev then some it.next
        else nodeNext? nodes j) ∧
      (∀ j, nodePrev? ns j =
        if j = h then some i
        else if j = i then some (if it.next = h then it.prev else hn0.prev)
        else if j = it.next then some it.prev
        else nodePrev? nodes j) := by
  have hib : i < nodes.length := lt_length_of_getElem? hit
  have hhb : h < nodes.length := lt_length_of_getElem? hh0
  set hp : Nat := if it.next = h then it.prev else hn0.prev with hhp
  have hhpb2 : hp < nodes.length := by
    rw [hhp]
    by_cases hnh : it.next = h <;> simp [hnh, hpb, hhpb]
  set ns1 := modifyNode nodes it.prev (fun nd => { nd with next := it.next }) with hns1
  set ns2 := modifyNode ns1 it.next (fun nd => { nd with prev := it.prev }) with hns2
  have hlen1 : ns1.length = nodes.length := length_modifyNode nodes _ _
  have hlen2 : ns2.length = nodes.length := by
    rw [hns2, length_modifyNode, hlen1]
  have hprev2 : ∀ j, nodePrev? ns2 j =
      if j = it.next then some it.prev else nodePrev? nodes j := by
    intro j
    rw [hns2, nodePrev?_modify_set_prev it.prev (by rw [hlen1]; exact hnb),
      hns1, nodePrev?_modify_set_next it.next]
  have hnext2 : ∀ j, nodeNext? ns2 j =
      if j = it.prev then some it.next else nodeNext? nodes j := by
    intro j
    rw [hns2, nodeNext?_modify_set_prev it.prev,
      hns1, nodeNext?_modify_set_next it.next hpb]
  have hn2h : nodePrev? ns2 h = some hp := by
    rw [hprev2 h]
    by_cases hnh : it.next = h
    · rw [if_pos hnh.symm, hhp, if_pos hnh]
    · rw [if_neg (fun hh => hnh hh.symm), hhp, if_neg hnh]
      unfold nodePrev?
      rw [hh0]
      rfl
  obtain ⟨hn1, h2some, h2prev⟩ : ∃ hn1, ns2[h]? = some hn1 ∧ hn1.prev = hp := by
    unfold nodePrev? at hn2h
    cases h2 : ns2[h]? with
    | none => rw [h2] at hn2h; exact Option.noConfusion hn2h
    | some nd =>
      rw [h2] at hn2h
      exact ⟨nd, rfl, Option.some.inj hn2h⟩
  set ns3 := modifyNode ns2 i (fun nd => { nd with prev := hn1.prev, next := h }) with hns3
  have hlen3 : ns3.length = nodes.length := by
    rw [hns3, length_modifyNode, hlen2]
  have h3some : ns3[h]? = some hn1 := by
    rw [hns3, getElem?_modifyNode, if_neg (fun hh => hih hh.symm)]
    exact h2some
  set ns4 := modifyNode ns3 hn1.prev (fun nd => { nd with next := i }) with hns4
  set ns5 := modifyNode ns4 h (fun nd => { nd with prev := i }) with hns5
  have hlen4 : ns4.length = nodes.length := by
    rw [hns4, length_modifyNode, hlen3]
  have hlen5 : ns5.length = nodes.length := by
    rw [hns5, length_modifyNode, hlen4]
  refine ⟨ns5, ?_, hlen5, ?_, ?_, ?_⟩
  · unfold spliceToFront
    rw [hit]
    simp only
    rw [h2some]
    simp only
    rw [h3some]
  · intro j
    rw [hns5, nodeKeyVal?_modify_set_prev i j,
      hns4, nodeKeyVal?_modify_set_next i j,
      hns3, nodeKeyVal?_modify_set_pn hn1.prev h j,
      hns2, nodeKeyVal?_modify_set_prev it.prev j,
      hns1, nodeKeyVal?_modify_set_next it.next j]
  · intro j
    rw [hns5, nodeNext?_modify_set_prev i j,
      hns4, nodeNext?_modify_set_next i (by rw [hlen3, h2prev]; exact hhpb2) j,
      h2prev]
    by_cases hj4 : j = hp
    · rw [if_pos hj4, if_pos hj4]
    · rw [if_neg hj4, if_neg hj4, hns3,
        nodeNext?_modify_set_pn hn1.prev h (by rw [hlen2]; exact hib) j]
      by_cases hj3 : j = i
      · rw [if_pos hj3, if_pos hj3]
      · rw [if_neg hj3, if_neg hj3, hnext2]
  · intro j
    rw [hns5, nodePrev?_modify_set_prev i (by rw [hlen4]; exact hhb) j]
    by_cases hj5 : j = h
    · rw [if_pos hj5, if_pos hj5]
    · rw [if_neg hj5, if_neg hj5, hns4, nodePrev?_modify_set_next i j,
        hns3, nodePrev?_modify_set_pn hn1.prev h (by rw [hlen2]; exact hib) j, h2prev]
      by_cases hj3 : j = i
      · rw [if_pos hj3, if_pos hj3]
      · rw [if_neg hj3, if_neg hj3, hprev2]

/-- Prop-level reading of the map part of the invariant. -/
theorem mapMatches_iff (m : List (K × Nat)) (nodes : List (LRUListNode K V))
    (ids : List Nat) : mapMatches m nodes ids = true ↔
    ((∀ p ∈ m, p.2 ∈ ids ∧ nodeKey? nodes p.2 = some p.1)
      ∧ (∀ j ∈ ids, (nodes[j]?).bind (fun nd => mapLookup m nd.key) = some j)
      ∧ (m.map Prod.fst).Nodup ∧ m.length = ids.length) := by
  unfold mapMatches
  simp [List.all_eq_true, and_assoc]

/-- Prop-level reading of the whole representation invariant. -/
def ReprP (l : LRUList K V) (ids : List Nat) : Prop :=
  l.cache = ids.head? ∧ ids.Nodup ∧ (∀ j ∈ ids, j < l.nodes.length)
  ∧ isCycle l.nodes ids = true
  ∧ (∀ p ∈ l.cacheMap, p.2 ∈ ids ∧ nodeKey? l.nodes p.2 = some p.1)
  ∧ (∀ j ∈ ids, (l.nodes[j]?).bind (fun nd => mapLookup l.cacheMap nd.key) = some j)
  ∧ (l.cacheMap.map Prod.fst).Nodup
  ∧ l.cacheMap.length = ids.length

theorem reprB_iff (l : LRUList K V) (ids : List Nat) :
    reprB l ids = true ↔ ReprP l ids := by
  unfold reprB ReprP
  rw [Bool.and_eq_true, Bool.and_eq_true, Bool.and_eq_true, Bool.and_eq_true,
    mapMatches_iff]
  simp [List.all_eq_true, and_assoc]

theorem linkedTo_next {nodes : List (LRUListNode K V)} {a b : Nat}
    (h : linkedTo nodes a b = true) : nodeNext? nodes a = some b := by
  unfold linkedTo at h
  exact (of_decide_eq_true (Bool.and_eq_true_iff.mp h).1)

theorem linkedTo_prev {nodes : List (LRUListNode K V)} {a b : Nat}
    (h : linkedTo nodes a b = true) : nodePrev? nodes b = some a := by
  unfold linkedTo at h
  exact (of_decide_eq_true (Bool.and_eq_true_iff.mp h).2)

theorem linkedTo_intro {nodes : List (LRUListNode K V)} {a b : Nat}
    (h1 : nodeNext? nodes a = some b) (h2 : nodePrev? nodes b = some a) :
    linkedTo nodes a b = true := by
  unfold linkedTo
  rw [Bool.and_eq_true, decide_eq_true_eq, decide_eq_true_eq]
  exact ⟨h1, h2⟩

theorem chainB_head_link {nodes : List (LRUListNode K V)} {x : Nat} {xs : List Nat}
    {z : Nat} (h : chainB nodes (x :: xs) z = true) :
    linkedTo nodes x (xs.headD z) = true :=
  (Bool.and_eq_true_iff.mp h).1

theorem chainB_tail {nodes : List (LRUListNode K V)} {x : Nat} {xs : List Nat}
    {z : Nat} (h : chainB nodes (x :: xs) z = true) : chainB nodes xs z = true :=
  (Bool.and_eq_true_iff.mp h).2

theorem chainB_cons_intro {nodes : List (LRUListNode K V)} {x : Nat} {xs : List Nat}
    {z : Nat} (h1 : linkedTo nodes x (xs.headD z) = true)
    (h2 : chainB nodes xs z = true) : chainB nodes (x :: xs) z = true := by
  unfold chainB
  rw [Bool.and_eq_true]
  exact ⟨h1, h2⟩

theorem chainB_concat_iff {nodes : List (LRUListNode K V)} {xs : List Nat} {a z : Nat} :
    chainB nodes (xs ++ [a]) z = true ↔
      (chainB nodes xs a = true ∧ linkedTo nodes a z = true) := by
  rw [chainB_append]
  simp [chainB]

theorem chainB_prev_z {nodes : List (LRUListNode K V)} {xs : List Nat} {z : Nat}
    (h : chainB nodes xs z = true) (hne : xs ≠ []) :
    nodePrev? nodes z = some (xs.getLast hne) := by
  rcases List.eq_nil_or_concat xs with rfl | ⟨ys, a, rfl⟩
  · exact absurd rfl hne
  · rw [List.getLast_concat' ys]
    rw [List.concat_eq_append] at h
    exact linkedTo_prev (chainB_concat_iff.mp h).2

theorem chainB_next_last {nodes : List (LRUListNode K V)} {xs : List Nat} {z : Nat}
    (h : chainB nodes xs z = true) (hne : xs ≠ []) :
    nodeNext? nodes (xs.getLast hne) = some z := by
  rcases List.eq_nil_or_concat xs with rfl | ⟨ys, a, rfl⟩
  · exact absurd rfl hne
  · rw [List.getLast_concat' ys]
    rw [List.concat_eq_append] at h
    exact linkedTo_next (chainB_concat_iff.mp h).2

theorem nodeKey?_eq_of_keyVal {ns nodes : List (LRUListNode K V)} {j : Nat}
    (h : nodeKeyVal? ns j = nodeKeyVal? nodes j) :
    nodeKey? ns j = nodeKey? nodes j := by
  unfold nodeKeyVal? at h
  unfold nodeKey?
  cases h1 : ns[j]? <;> cases h2 : nodes[j]? <;> rw [h1, h2] at h <;> simp_all

theorem bindLookup_eq_of_keyVal {ns nodes : List (LRUListNode K V)} {j : Nat}
    (m : List (K × Nat)) (h : nodeKeyVal? ns j = nodeKeyVal? nodes j) :
    (ns[j]?).bind (fun nd => mapLookup m nd.key) =
      (nodes[j]?).bind (fun nd => mapLookup m nd.key) := by
  unfold nodeKeyVal? at h
  cases h1 : ns[j]? <;> cases h2 : nodes[j]? <;> rw [h1, h2] at h <;> simp_all

/-- The map part of the invariant only depends on the keys of live nodes
and the membership of identifiers, so it transfers along a permutation of
the cycle order and any rewiring that keeps keys and values in place. -/
theorem mapMatches_transfer {m : List (K × Nat)} {nodes ns : List (LRUListNode K V)}
    {ids ids' : List Nat} (hperm : ids'.Perm ids)
    (hkv : ∀ j, nodeKeyVal? ns j = nodeKeyVal? nodes j)
    (hm : mapMatches m nodes ids = true) : mapMatches m ns ids' = true := by
  rw [mapMatches_iff] at hm ⊢
  obtain ⟨h1, h2, h3, h4⟩ := hm
  refine ⟨?_, ?_, h3, ?_⟩
  · intro p hp
    exact ⟨hperm.mem_iff.mpr (h1 p hp).1,
      (nodeKey?_eq_of_keyVal (hkv p.2)).trans (h1 p hp).2⟩
  · intro j hj
    rw [bindLookup_eq_of_keyVal m (hkv j)]
    exact h2 j (hperm.mem_iff.mp hj)
  · rw [h4, hperm.length_eq]

/-- Rewiring only the outgoing link of the last element of a chain, and
the back link of the new target, keeps the chain intact up to the new
target. -/
theorem chainB_retarget {nodes ns : List (LRUListNode K V)} {xs : List Nat}
    {z z' w : Nat} (hw : xs.getLast? = some w)
    (hch : chainB nodes xs z = true) (hnd : xs.Nodup)
    (hnext : ∀ a ∈ xs, a ≠ w → nodeNext? ns a = nodeNext? nodes a)
    (hlast : nodeNext? ns w = some z')
    (hprev : ∀ b ∈ xs.tail, nodePrev? ns b = nodePrev? nodes b)
    (hz : nodePrev? ns z' = some w) :
    chainB ns xs z' = true := by
  induction xs with
  | nil => exact Option.noConfusion hw
  | cons x xs ih =>
    cases xs with
    | nil =>
      have hx : x = w := by
        have : some x = some w := hw
        exact Option.some.inj this
      subst hx
      exact chainB_cons_intro (linkedTo_intro hlast hz) rfl
    | cons y ys =>
      have hw2 : (y :: ys).getLast? = some w := by
        rw [← hw, List.getLast?_cons_cons]
      have hwmem : w ∈ y :: ys := List.mem_of_mem_getLast? hw2
      have hxlast : x ≠ w := fun he => (List.nodup_cons.mp hnd).1 (he ▸ hwmem)
      refine chainB_cons_intro ?_ ?_
      · have h1 : linkedTo nodes x ((y :: ys).headD z) = true := chainB_head_link hch
        have h2 : (y :: ys).headD z = y := rfl
        rw [h2] at h1
        show linkedTo ns x y = true
        exact linkedTo_intro
          ((hnext x (List.mem_cons_self x _) hxlast).trans (linkedTo_next h1))
          ((hprev y (List.mem_cons_self y ys)).trans (linkedTo_prev h1))
      · exact ih hw2 (chainB_tail hch) (List.nodup_cons.mp hnd).2
          (fun a ha hal => hnext a (List.mem_cons_of_mem x ha) hal)
          (fun b hb => hprev b (List.mem_cons_of_mem y hb))

theorem chainB_prev_z2 {nodes : List (LRUListNode K V)} {xs : List Nat} {z w : Nat}
    (h : chainB nodes xs z = true) (hw : xs.getLast? = some w) :
    nodePrev? nodes z = some w := by
  have hne : xs ≠ [] := by rintro rfl; exact Option.noConfusion hw
  have h2 := chainB_prev_z h hne
  rw [List.getLast?_eq_getLast _ hne, Option.some.injEq] at hw
  rw [h2, hw]

theorem chainB_next_last2 {nodes : List (LRUListNode K V)} {xs : List Nat} {z w : Nat}
    (h : chainB nodes xs z = true) (hw : xs.getLast? = some w) :
    nodeNext? nodes w = some z := by
  have hne : xs ≠ [] := by rintro rfl; exact Option.noConfusion hw
  have h2 := chainB_next_last h hne
  rw [List.getLast?_eq_getLast _ hne, Option.some.injEq] at hw
  rw [hw] at h2
  exact h2

/-- Promoting a member of the cycle that is not the head: the splice of
the source succeeds, keys and values stay in place, and the resulting
state satisfies the invariant with the promoted node first and the rest of
the cycle in its old relative order. -/
theorem splice_reprB {l : LRUList K V} {ids t : List Nat} {h i : Nat}
    (hrep : reprB l ids = true) (hids : ids = h :: t) (hmem : i ∈ t) :
    ∃ ns, spliceToFront l.nodes h i = some ns ∧
      ns.length = l.nodes.length ∧
      (∀ j, nodeKeyVal? ns j = nodeKeyVal? l.nodes j) ∧
      (i :: ids.erase i).Perm ids ∧
      reprB { l with nodes := ns, cache := some i } (i :: ids.erase i) = true := by
  subst hids
  rw [reprB_iff] at hrep
  obtain ⟨hcache, hnd, hbound, hcyc, hm1, hm2, hm3, hm4⟩ := hrep
  obtain ⟨t1, t2, rfl⟩ := List.append_of_mem hmem
  have hht : h ∉ t1 ++ i :: t2 := (List.nodup_cons.mp hnd).1
  have hndt : (t1 ++ i :: t2).Nodup := (List.nodup_cons.mp hnd).2
  have hih : i ≠ h := fun he => hht (he ▸ hmem)
  have hht1 : h ∉ t1 := fun hx => hht (List.mem_append_left _ hx)
  have hht2 : h ∉ t2 := fun hx =>
    hht (List.mem_append_right _ (List.mem_cons_of_mem i hx))
  have hmid : (i :: (t1 ++ t2)).Nodup := List.nodup_middle.mp hndt
  have hit12 : i ∉ t1 ++ t2 := (List.nodup_cons.mp hmid).1
  have hit1 : i ∉ t1 := fun hx => hit12 (List.mem_append_left _ hx)
  have hit2 : i ∉ t2 := fun hx => hit12 (List.mem_append_right _ hx)
  have hnd12 : (t1 ++ t2).Nodup := (List.nodup_cons.mp hmid).2
  have hdisj : List.Disjoint t1 t2 := (List.nodup_append.mp hnd12).2.2
  have hndt1 : t1.Nodup := (List.nodup_append.mp hnd12).1
  have hndt2 : t2.Nodup := (List.nodup_append.mp hnd12).2.1
  have hmemids : i ∈ h :: (t1 ++ i :: t2) :=
    List.mem_cons_of_mem h hmem
  -- the cycle chain and its decomposition
  have hchain : chainB l.nodes ((h :: t1) ++ (i :: t2)) h = true := hcyc
  rw [chainB_append] at hchain
  obtain ⟨F1, F2⟩ := Bool.and_eq_true_iff.mp hchain
  have F1' : chainB l.nodes (h :: t1) i = true := F1
  have Fi : linkedTo l.nodes i (t2.headD h) = true := chainB_head_link F2
  have F3 : chainB l.nodes t2 h = true := chainB_tail F2
  -- live nodes at i and h
  have hib : i < l.nodes.length := hbound i hmemids
  obtain ⟨it, hit⟩ := isSome_getElem? hib
  have hhb : h < l.nodes.length := hbound h (List.mem_cons_self h _)
  obtain ⟨hn0, hh0⟩ := isSome_getElem? hhb
  -- the three surrounding identifiers
  obtain ⟨P, hPdef⟩ : ∃ P, (h :: t1).getLast? = some P := by
    cases hq : (h :: t1).getLast? with
    | none => exact absurd (List.getLast?_eq_none_iff.mp hq) (List.cons_ne_nil h t1)
    | some a => exact ⟨a, rfl⟩
  have hPmem : P ∈ h :: t1 := List.mem_of_mem_getLast? hPdef
  have hitprev : it.prev = P := by
    have := chainB_prev_z2 F1' hPdef
    unfold nodePrev? at this
    rw [hit] at this
    exact Option.some.inj this
  have hitnext : it.next = t2.headD h := by
    have := linkedTo_next Fi
    unfold nodeNext? at this
    rw [hit] at this
    exact Option.some.inj this
  obtain ⟨W, hWdef⟩ : ∃ W, (i :: t2).getLast? = some W := by
    cases hq : (i :: t2).getLast? with
    | none => exact absurd (List.getLast?_eq_none_iff.mp hq) (List.cons_ne_nil i t2)
    | some a => exact ⟨a, rfl⟩
  have hWmem : W ∈ i :: t2 := List.mem_of_mem_getLast? hWdef
  have hWfull : ((h :: t1) ++ (i :: t2)).getLast? = some W := by
    rw [List.getLast?_append_of_ne_nil _ (List.cons_ne_nil i t2)]
    exact hWdef
  have hn0prev : hn0.prev = W := by
    have h2 : chainB l.nodes ((h :: t1) ++ (i :: t2)) h = true := hcyc
    have := chainB_prev_z2 h2 hWfull
    unfold nodePrev? at this
    rw [hh0] at this
    exact Option.some.inj this
  -- bounds for the rewired identifiers
  have hPb : P < l.nodes.length := hbound P (by
    rcases List.mem_cons.mp hPmem with rfl | hx
    · exact List.mem_cons_self P _
    · exact List.mem_cons_of_mem h (List.mem_append_left _ hx))
  have hWb : W < l.nodes.length := hbound W (by
    rcases List.mem_cons.mp hWmem with rfl | hx
    · exact hmemids
    · exact List.mem_cons_of_mem h
        (List.mem_append_right _ (List.mem_cons_of_mem i hx)))
  have hnext_b : it.next < l.nodes.length := by
    rw [hitnext]
    cases t2 with
    | nil => exact hhb
    | cons c t2r =>
      exact hbound c (List.mem_cons_of_mem h
        (List.mem_append_right _ (List.mem_cons_of_mem i (List.mem_cons_self c t2r))))
  obtain ⟨ns, hrun, hlen, hkv, hnextF, hprevF⟩ :=
    spliceToFront_spec l.nodes hit hh0 hih (hitprev ▸ hPb) hnext_b (hn0prev ▸ hWb)
  -- the shape of the cycle list after erasing the promoted node
  have hErase : (h :: (t1 ++ i :: t2)).erase i = h :: (t1 ++ t2) := by
    rw [List.erase_cons_tail]
    · rw [List.erase_append_right _ hit1, List.erase_cons_head]
    · simp [hih.symm]
  have hperm : (i :: (h :: (t1 ++ i :: t2)).erase i).Perm (h :: (t1 ++ i :: t2)) :=
    (List.perm_cons_erase hmemids).symm
  refine ⟨ns, hrun, hlen, hkv, hperm, ?_⟩
  rw [reprB_iff]
  have hchainNew : chainB ns (i :: h :: (t1 ++ t2)) i = true := by
    cases t2 with
    | nil =>
      have hnh : it.next = h := hitnext
      have hpP : (if it.next = h then it.prev else hn0.prev) = P := by
        rw [if_pos hnh, hitprev]
      rw [hpP] at hnextF hprevF
      have hiP : i ≠ P := by
        intro he
        rcases List.mem_cons.mp hPmem with h2 | hx
        · exact hih (he.trans h2)
        · exact hit1 (by rw [he]; exact hx)
      refine chainB_cons_intro ?_ ?_
      · show linkedTo ns i h = true
        refine linkedTo_intro ?_ ?_
        · rw [hnextF i, if_neg hiP, if_pos rfl]
        · rw [hprevF h, if_pos rfl]
      · show chainB ns (h :: (t1 ++ [])) i = true
        rw [List.append_nil]
        have hndh1 : (h :: t1).Nodup := by
          have h2 : ((h :: t1) ++ [i]).Nodup := hnd
          exact (List.nodup_append.mp h2).1
        refine chainB_retarget hPdef F1' hndh1 ?_ ?_ ?_ ?_
        · intro a ha hal
          have hai : a ≠ i := by
            rintro rfl
            rcases List.mem_cons.mp ha with he | hx
            · exact hih he
            · exact hit1 hx
          rw [hnextF a, if_neg hal, if_neg hai, if_neg (hitprev ▸ hal)]
        · rw [hnextF P, if_pos rfl]
        · intro b hb
          have hbh : b ≠ h := fun he => hht1 (he ▸ hb)
          have hbi : b ≠ i := fun he => hit1 (he ▸ hb)
          have hbn : b ≠ it.next := fun he => hbh (he.trans hnh)
          rw [hprevF b, if_neg hbh, if_neg hbi, if_neg hbn]
        · rw [hprevF i, if_neg hih, if_pos rfl]
    | cons c t2r =>
      have hcmem : c ∈ c :: t2r := List.mem_cons_self c t2r
      have hnc : it.next = c := hitnext
      have hch : ¬ it.next = h := by
        rw [hnc]
        rintro rfl
        exact hht2 hcmem
      have hpW : (if it.next = h then it.prev else hn0.prev) = W := by
        rw [if_neg hch, hn0prev]
      rw [hpW] at hnextF hprevF
      have hW2 : (c :: t2r).getLast? = some W := by
        rw [← List.getLast?_cons_cons]
        exact hWdef
      have hWt2 : W ∈ c :: t2r := List.mem_of_mem_getLast? hW2
      have hiW : i ≠ W := by
        intro he
        exact hit2 (by rw [he]; exact hWt2)
      have hPW : P ≠ W := by
        intro he
        rcases List.mem_cons.mp hPmem with h2 | hx
        · exact hht2 (by rw [← h2, he]; exact hWt2)
        · exact hdisj hx (by rw [he]; exact hWt2)
      have hPi : P ≠ i := by
        intro he
        rcases List.mem_cons.mp hPmem with h2 | hx
        · exact hih (he.symm.trans h2)
        · exact hit1 (by rw [← he]; exact hx)
      refine chainB_cons_intro ?_ ?_
      · show linkedTo ns i h = true
        refine linkedTo_intro ?_ ?_
        · rw [hnextF i, if_neg hiW, if_pos rfl]
        · rw [hprevF h, if_pos rfl]
      · show chainB ns ((h :: t1) ++ (c :: t2r)) i = true
        rw [chainB_append, Bool.and_eq_true]
        constructor
        · show chainB ns (h :: t1) ((c :: t2r).headD i) = true
          have hndh1 : (h :: t1).Nodup := by
            have h2 : ((h :: t1) ++ (i :: c :: t2r)).Nodup := hnd
            exact (List.nodup_append.mp h2).1
          refine chainB_retarget hPdef F1' hndh1 ?_ ?_ ?_ ?_
          · intro a ha hal
            have haW : a ≠ W := by
              rintro rfl
              rcases List.mem_cons.mp ha with he | hx
              · exact hht2 (he ▸ hWt2)
              · exact hdisj hx hWt2
            have hai : a ≠ i := by
              rintro rfl
              rcases List.mem_cons.mp ha with he | hx
              · exact hih he
              · exact hit1 hx
            rw [hnextF a, if_neg haW, if_neg hai, if_neg (hitprev ▸ hal)]
          · show nodeNext? ns P = some ((c :: t2r).headD i)
            rw [hnextF P, if_neg hPW, if_neg hPi, hitprev, if_pos rfl, hnc]
            rfl
          · intro b hb
            have hbh : b ≠ h := fun he => hht1 (he ▸ hb)
            have hbi : b ≠ i := fun he => hit1 (he ▸ hb)
            have hbn : b ≠ it.next := by
              rw [hnc]
              rintro rfl
              exact hdisj hb hcmem
            rw [hprevF b, if_neg hbh, if_neg hbi, if_neg hbn]
          · show nodePrev? ns ((c :: t2r).headD i) = some P
            have hchh : (c :: t2r).headD i = c := rfl
            rw [hchh]
            have hch2 : c ≠ h := fun he => hht2 (he ▸ hcmem)
            have hci : c ≠ i := fun he => hit2 (he ▸ hcmem)
            rw [hprevF c, if_neg hch2, if_neg hci, hnc, if_pos rfl, hitprev]
        · show chainB ns (c :: t2r) i = true
          refine chainB_retarget hW2 F3 hndt2 ?_ ?_ ?_ ?_
          · intro a ha hal
            have hai : a ≠ i := fun he => hit2 (he ▸ ha)
            have haP : a ≠ it.prev := by
              rw [hitprev]
              rintro rfl
              rcases List.mem_cons.mp hPmem with he | hx
              · exact hht2 (he ▸ ha)
              · exact hdisj hx ha
            rw [hnextF a, if_neg hal, if_neg hai, if_neg haP]
          · rw [hnextF W, if_pos rfl]
          · intro b hb
            have hbh : b ≠ h := fun he => hht2 (he ▸ List.mem_cons_of_mem c hb)
            have hbi : b ≠ i := fun he => hit2 (he ▸ List.mem_cons_of_mem c hb)
            have hbn : b ≠ it.next := by
              rw [hnc]
              rintro rfl
              exact (List.nodup_cons.mp hndt2).1 hb
            rw [hprevF b, if_neg hbh, if_neg hbi, if_neg hbn]
          · rw [hprevF i, if_neg hih, if_pos rfl]
  refine ⟨rfl, hperm.symm.nodup hnd, ?_, ?_, ?_, ?_, hm3, ?_⟩
  · intro j hj
    show j < ns.length
    rw [hlen]
    exact hbound j (hperm.mem_iff.mp hj)
  · show isCycle ns (i :: (h :: (t1 ++ i :: t2)).erase i) = true
    rw [hErase]
    exact hchainNew
  · intro p hp
    exact ⟨hperm.mem_iff.mpr (hm1 p hp).1,
      (nodeKey?_eq_of_keyVal (hkv p.2)).trans (hm1 p hp).2⟩
  · intro j hj
    show (ns[j]?).bind _ = some j
    rw [bindLookup_eq_of_keyVal _ (hkv j)]
    exact hm2 j (hperm.mem_iff.mp hj)
  · show l.cacheMap.length = (i :: (h :: (t1 ++ i :: t2)).erase i).length
    rw [hm4, hperm.length_eq]

theorem nodeNext?_append {nodes zs : List (LRUListNode K V)} {a : Nat}
    (ha : a < nodes.length) : nodeNext? (nodes ++ zs) a = nodeNext? nodes a := by
  unfold nodeNext?
  rw [List.getElem?_append_left ha]

theorem nodePrev?_append {nodes zs : List (LRUListNode K V)} {a : Nat}
    (ha : a < nodes.length) : nodePrev? (nodes ++ zs) a = nodePrev? nodes a := by
  unfold nodePrev?
  rw [List.getElem?_append_left ha]

theorem nodeKeyVal?_append {nodes zs : List (LRUListNode K V)} {a : Nat}
    (ha : a < nodes.length) : nodeKeyVal? (nodes ++ zs) a = nodeKeyVal? nodes a := by
  unfold nodeKeyVal?
  rw [List.getElem?_append_left ha]

/-- Inserting a fresh node before the head when the store is not empty
(the under-capacity miss branch of Set with a non-nil head): the new state
satisfies the invariant with the fresh node first. -/
theorem insert_reprB {l : LRUList K V} {ids t : List Nat} {h : Nat}
    {hn : LRUListNode K V} {key : K} {val : V}
    (hrep : reprB l ids = true) (hids : ids = h :: t)
    (hlook : mapLookup l.cacheMap key = none) (hh0 : l.nodes[h]? = some hn) :
    reprB { l with
      cacheMap := mapInsert l.cacheMap key l.nodes.length,
      nodes := modifyNode
        (modifyNode (l.nodes ++ [⟨key, val, hn.prev, h⟩]) hn.prev
          (fun nd => { nd with next := l.nodes.length }))
        h (fun nd => { nd with prev := l.nodes.length }),
      cache := some l.nodes.length } (l.nodes.length :: ids) = true := by
  subst hids
  rw [reprB_iff] at hrep ⊢
  obtain ⟨hcache, hnd, hbound, hcyc, hm1, hm2, hm3, hm4⟩ := hrep
  set c := l.nodes.length with hc
  set nsb := l.nodes ++ [(⟨key, val, hn.prev, h⟩ : LRUListNode K V)] with hnsb
  set ns2 := modifyNode nsb hn.prev (fun nd => { nd with next := c }) with hns2
  set ns3 := modifyNode ns2 h (fun nd => { nd with prev := c }) with hns3
  have hcnot : c ∉ h :: t := fun hx => Nat.lt_irrefl c (hbound c hx)
  have hhb : h < c := hbound h (List.mem_cons_self h t)
  have hlenb : nsb.length = l.nodes.length + 1 := by
    rw [hnsb, List.length_append, List.length_singleton]
  have hlen2 : ns2.length = l.nodes.length + 1 := by
    rw [hns2, length_modifyNode, hlenb]
  have hlen3 : ns3.length = l.nodes.length + 1 := by
    rw [hns3, length_modifyNode, hlen2]
  -- the tail of the cycle
  obtain ⟨W, hWdef⟩ : ∃ W, (h :: t).getLast? = some W := by
    cases hq : (h :: t).getLast? with
    | none => exact absurd (List.getLast?_eq_none_iff.mp hq) (List.cons_ne_nil h t)
    | some a => exact ⟨a, rfl⟩
  have hWmem : W ∈ h :: t := List.mem_of_mem_getLast? hWdef
  have hWb : W < c := hbound W hWmem
  have hchain : chainB l.nodes (h :: t) h = true := hcyc
  have hprevW : hn.prev = W := by
    have := chainB_prev_z2 hchain hWdef
    unfold nodePrev? at this
    rw [hh0] at this
    exact Option.some.inj this
  have hcW : c ≠ W := by
    intro he
    exact Nat.lt_irrefl W (he ▸ hWb)
  have hch : c ≠ h := by
    intro he
    exact Nat.lt_irrefl h (he ▸ hhb)
  -- the fresh node is live and carries the new binding
  have hcb : nsb[c]? = some ⟨key, val, hn.prev, h⟩ := by
    rw [hnsb, hc]
    exact List.getElem?_concat_length l.nodes _
  have hkvc : nodeKeyVal? ns3 c = some (key, val) := by
    rw [hns3, nodeKeyVal?_modify_set_prev c c, hns2, nodeKeyVal?_modify_set_next c c]
    unfold nodeKeyVal?
    rw [hcb]
    rfl
  have hnextc : nodeNext? ns3 c = some h := by
    rw [hns3, nodeNext?_modify_set_prev c c, hns2, nodeNext?_modify_set_next c
      (by rw [hlenb]; exact Nat.lt_succ_of_lt (hprevW ▸ hWb)) c,
      if_neg (hprevW ▸ hcW)]
    unfold nodeNext?
    rw [hcb]
    rfl
  have hprevc : nodePrev? ns3 c = some W := by
    rw [hns3, nodePrev?_modify_set_prev c (by rw [hlen2]; exact Nat.lt_succ_of_lt hhb) c,
      if_neg hch, hns2, nodePrev?_modify_set_next c c]
    unfold nodePrev?
    rw [hcb]
    exact congrArg some hprevW
  -- transfer of old nodes
  have hkvold : ∀ j, j < l.nodes.length → nodeKeyVal? ns3 j = nodeKeyVal? l.nodes j := by
    intro j hj
    rw [hns3, nodeKeyVal?_modify_set_prev c j, hns2, nodeKeyVal?_modify_set_next c j,
      hnsb, nodeKeyVal?_append hj]
  have hnextold : ∀ j, j < l.nodes.length → j ≠ W →
      nodeNext? ns3 j = nodeNext? l.nodes j := by
    intro j hj hjW
    rw [hns3, nodeNext?_modify_set_prev c j, hns2, nodeNext?_modify_set_next c
      (by rw [hlenb]; exact Nat.lt_succ_of_lt (hprevW ▸ hWb)) j,
      if_neg (hprevW ▸ hjW), hnsb, nodeNext?_append hj]
  have hprevold : ∀ j, j < l.nodes.length → j ≠ h →
      nodePrev? ns3 j = nodePrev? l.nodes j := by
    intro j hj hjh
    rw [hns3, nodePrev?_modify_set_prev c (by rw [hlen2]; exact Nat.lt_succ_of_lt hhb) j,
      if_neg hjh, hns2, nodePrev?_modify_set_next c j, hnsb, nodePrev?_append hj]
  have hnextW : nodeNext? ns3 W = some c := by
    rw [hns3, nodeNext?_modify_set_prev c W, hns2, nodeNext?_modify_set_next c
      (by rw [hlenb]; exact Nat.lt_succ_of_lt (hprevW ▸ hWb)) W,
      if_pos hprevW.symm]
  have hprevh : nodePrev? ns3 h = some c := by
    rw [hns3, nodePrev?_modify_set_prev c (by rw [hlen2]; exact Nat.lt_succ_of_lt hhb) h,
      if_pos rfl]
  -- the new cycle
  have hchainNew : chainB ns3 (c :: h :: t) c = true := by
    refine chainB_cons_intro (linkedTo_intro hnextc hprevh) ?_
    refine chainB_retarget hWdef hchain hnd ?_ hnextW ?_ hprevc
    · intro a ha hal
      exact hnextold a (hbound a ha) hal
    · intro b hb
      have hbh : b ≠ h := fun he => (List.nodup_cons.mp hnd).1 (he ▸ hb)
      exact hprevold b (hbound b (List.mem_cons_of_mem h hb)) hbh
  -- the fresh node
  obtain ⟨ndc, hndc, hkeyc⟩ :
      ∃ nd, ns3[c]? = some nd ∧ nd.key = key := by
    unfold nodeKeyVal? at hkvc
    cases hq : ns3[c]? with
    | none => rw [hq] at hkvc; exact Option.noConfusion hkvc
    | some nd =>
      rw [hq] at hkvc
      exact ⟨nd, rfl, congrArg Prod.fst (Option.some.inj hkvc)⟩
  -- the new map
  have hmapins : mapInsert l.cacheMap key c = (key, c) :: l.cacheMap := by
    rw [mapInsert, mapDelete_eq_self hlook]
  refine ⟨rfl, ?_, ?_, hchainNew, ?_, ?_, ?_, ?_⟩
  · exact List.nodup_cons.mpr ⟨hcnot, hnd⟩
  · intro j hj
    show j < ns3.length
    rw [hlen3]
    rcases List.mem_cons.mp hj with he | hx
    · rw [he]; exact Nat.lt_succ_self _
    · exact Nat.lt_succ_of_lt (hbound j hx)
  · intro p hp
    rw [hmapins] at hp
    rcases List.mem_cons.mp hp with he | hx
    · rw [he]
      refine ⟨List.mem_cons_self c _, ?_⟩
      show nodeKey? ns3 c = some key
      unfold nodeKey?
      rw [hndc]
      exact congrArg some hkeyc
    · refine ⟨List.mem_cons_of_mem c (hm1 p hx).1, ?_⟩
      rw [show nodeKey? ns3 p.2 = nodeKey? l.nodes p.2 from
        nodeKey?_eq_of_keyVal (hkvold p.2 (hbound p.2 (hm1 p hx).1))]
      exact (hm1 p hx).2
  · intro j hj
    rcases List.mem_cons.mp hj with he | hx
    · rw [he]
      show (ns3[c]?).bind _ = some c
      rw [hndc]
      simp only [Option.some_bind]
      rw [hkeyc, hmapins, mapLookup, if_pos rfl]
    · show (ns3[j]?).bind _ = some j
      rw [bindLookup_eq_of_keyVal _ (hkvold j (hbound j hx))]
      have hj2 := hm2 j hx
      obtain ⟨nd, hndq⟩ := isSome_getElem? (hbound j hx)
      rw [hndq] at hj2 ⊢
      simp only [Option.some_bind] at hj2 ⊢
      have hkne : nd.key ≠ key := by
        intro he
        rw [he, hlook] at hj2
        exact Option.noConfusion hj2
      rw [mapLookup_insert_ne _ _ hkne]
      exact hj2
  · exact nodup_fst_mapInsert key c hm3
  · show (mapInsert l.cacheMap key c).length = (c :: h :: t).length
    rw [hmapins, List.length_cons, List.length_cons, hm4, List.length_cons]

/-- Inserting the first node into an empty store (the under-capacity miss
branch of Set with a nil head): the fresh node forms a one-element cycle. -/
theorem insert_empty_reprB {l : LRUList K V} {key : K} {val : V}
    (hrep : reprB l [] = true) :
    reprB { l with
      cacheMap := mapInsert l.cacheMap key l.nodes.length,
      nodes := l.nodes ++ [⟨key, val, l.nodes.length, l.nodes.length⟩],
      cache := some l.nodes.length } [l.nodes.length] = true := by
  rw [reprB_iff] at hrep ⊢
  obtain ⟨hcache, hnd, hbound, hcyc, hm1, hm2, hm3, hm4⟩ := hrep
  have hmnil : l.cacheMap = [] := List.length_eq_zero.mp hm4
  set c := l.nodes.length with hc
  have hcb : (l.nodes ++ [(⟨key, val, c, c⟩ : LRUListNode K V)])[c]? =
      some ⟨key, val, c, c⟩ := List.getElem?_concat_length l.nodes _
  have hmapins : mapInsert l.cacheMap key c = [(key, c)] := by
    rw [hmnil]
    rfl
  refine ⟨rfl, List.nodup_singleton c, ?_, ?_, ?_, ?_, ?_, ?_⟩
  · intro j hj
    rw [List.mem_singleton.mp hj]
    show c < (l.nodes ++ [_]).length
    rw [List.length_append, List.length_singleton]
    exact Nat.lt_succ_self _
  · show chainB (l.nodes ++ [(⟨key, val, c, c⟩ : LRUListNode K V)]) [c] c = true
    refine chainB_cons_intro ?_ rfl
    refine linkedTo_intro ?_ ?_
    · show nodeNext? (l.nodes ++ [(⟨key, val, c, c⟩ : LRUListNode K V)]) c = some c
      unfold nodeNext?
      rw [hcb]
      rfl
    · show nodePrev? (l.nodes ++ [(⟨key, val, c, c⟩ : LRUListNode K V)]) c = some c
      unfold nodePrev?
      rw [hcb]
      rfl
  · intro p hp
    rw [hmapins, List.mem_singleton] at hp
    rw [hp]
    refine ⟨List.mem_singleton_self c, ?_⟩
    show nodeKey? (l.nodes ++ [(⟨key, val, c, c⟩ : LRUListNode K V)]) c = some key
    unfold nodeKey?
    rw [hcb]
    rfl
  · intro j hj
    rw [List.mem_singleton.mp hj]
    show ((l.nodes ++ [(⟨key, val, c, c⟩ : LRUListNode K V)])[c]?).bind
      (fun nd => mapLookup (mapInsert l.cacheMap key c) nd.key) = some c
    rw [hcb]
    simp only [Option.some_bind]
    exact mapLookup_insert_self l.cacheMap key c
  · rw [hmapins]
    exact List.nodup_singleton key
  · rw [hmapins]
    rfl

/-- Moving the head back to its predecessor (line 70 of the source, the
first step of the eviction branch) keeps the invariant, with the cycle
rotated so that the old tail comes first. -/
theorem rotate_reprB {l : LRUList K V} {ids t : List Nat} {h : Nat}
    {hn : LRUListNode K V}
    (hrep : reprB l ids = true) (hids : ids = h :: t) (hh0 : l.nodes[h]? = some hn) :
    ids.getLast? = some hn.prev ∧
    (hn.prev :: ids.dropLast).Perm ids ∧
    reprB { l with cache := some hn.prev } (hn.prev :: ids.dropLast) = true := by
  subst hids
  rw [reprB_iff] at hrep
  obtain ⟨hcache, hnd, hbound, hcyc, hm1, hm2, hm3, hm4⟩ := hrep
  obtain ⟨W, hWdef⟩ : ∃ W, (h :: t).getLast? = some W := by
    cases hq : (h :: t).getLast? with
    | none => exact absurd (List.getLast?_eq_none_iff.mp hq) (List.cons_ne_nil h t)
    | some a => exact ⟨a, rfl⟩
  have hchain : chainB l.nodes (h :: t) h = true := hcyc
  have hprevW : hn.prev = W := by
    have := chainB_prev_z2 hchain hWdef
    unfold nodePrev? at this
    rw [hh0] at this
    exact Option.some.inj this
  have hconcat : (h :: t).dropLast ++ [W] = h :: t := by
    have hne : (h :: t) ≠ [] := List.cons_ne_nil h t
    rw [List.getLast?_eq_getLast _ hne, Option.some.injEq] at hWdef
    rw [← hWdef]
    exact List.dropLast_concat_getLast hne
  have hperm : (W :: (h :: t).dropLast).Perm (h :: t) := by
    have h2 : ((h :: t).dropLast ++ [W]).Perm (W :: (h :: t).dropLast) :=
      List.perm_append_singleton W _
    rw [hconcat] at h2
    exact h2.symm
  have hchainrot : chainB l.nodes (W :: (h :: t).dropLast) W = true := by
    have h2 : chainB l.nodes ((h :: t).dropLast ++ [W]) h = true := by
      rw [hconcat]
      exact hchain
    obtain ⟨hfront, hWh⟩ := chainB_concat_iff.mp h2
    cases hq : (h :: t).dropLast with
    | nil =>
      -- the store has one slot and the head stays put
      have hWrfl : W = h := by
        have := hconcat
        rw [hq] at this
        simp only [List.nil_append] at this
        exact (List.cons.injEq _ _ _ _ ▸ this).1
      refine chainB_cons_intro ?_ rfl
      show linkedTo l.nodes W ((List.nil : List Nat).headD W) = true
      show linkedTo l.nodes W W = true
      rw [hWrfl] at hWh ⊢
      exact hWh
    | cons d rest =>
      have hdh : d = h := by
        have := hconcat
        rw [hq] at this
        simp only [List.cons_append] at this
        exact (List.cons.injEq _ _ _ _ ▸ this).1
      refine chainB_cons_intro ?_ ?_
      · show linkedTo l.nodes W ((d :: rest).headD W) = true
        show linkedTo l.nodes W d = true
        rw [hdh]
        exact hWh
      · rw [← hq]
        exact hfront
  rw [hprevW]
  refine ⟨hWdef, hperm, ?_⟩
  rw [reprB_iff]
  refine ⟨rfl, hperm.symm.nodup hnd, ?_, hchainrot, ?_, ?_, hm3, ?_⟩
  · intro j hj
    exact hbound j (hperm.mem_iff.mp hj)
  · intro p hp
    exact ⟨hperm.mem_iff.mpr (hm1 p hp).1, (hm1 p hp).2⟩
  · intro j hj
    exact hm2 j (hperm.mem_iff.mp hj)
  · rw [hm4, hperm.length_eq]

/-- Completing a successful eviction: overwriting the key and value of the
just-rotated head slot and swapping the bindings in the map keeps the
invariant over the same cycle order. -/
theorem evictFinish_reprB {l : LRUList K V} {ids t : List Nat} {W : Nat}
    {nd2 : LRUListNode K V} {key : K} (val : V)
    (hrep : reprB l ids = true) (hids : ids = W :: t)
    (hW0 : l.nodes[W]? = some nd2)
    (hlook : mapLookup l.cacheMap key = none) :
    reprB { l with
      cacheMap := mapInsert (mapDelete l.cacheMap nd2.key) key W,
      nodes := modifyNode l.nodes W (fun nd => { nd with key := key, val := val }) }
      (W :: t) = true := by
  subst hids
  rw [reprB_iff] at hrep ⊢
  obtain ⟨hcache, hnd, hbound, hcyc, hm1, hm2, hm3, hm4⟩ := hrep
  have hWmem : W ∈ W :: t := List.mem_cons_self W t
  have hWb : W < l.nodes.length := hbound W hWmem
  set ns := modifyNode l.nodes W (fun nd => { nd with key := key, val := val })
    with hns
  have hlen : ns.length = l.nodes.length := by rw [hns, length_modifyNode]
  have hlookW : mapLookup l.cacheMap nd2.key = some W := by
    have := hm2 W hWmem
    rw [hW0] at this
    simpa using this
  have hkeyne : nd2.key ≠ key := by
    intro he
    rw [he, hlook] at hlookW
    exact Option.noConfusion hlookW
  have hnsW : ns[W]? = some { nd2 with key := key, val := val } := by
    rw [hns, getElem?_modifyNode, if_pos rfl, hW0]
    rfl
  have hnsother : ∀ j, j ≠ W → ns[j]? = l.nodes[j]? := by
    intro j hj
    rw [hns, getElem?_modifyNode, if_neg hj]
  -- links unchanged
  have hchainNew : chainB ns (W :: t) W = true := by
    have hcyc2 : chainB l.nodes (W :: t) W = true := hcyc
    rw [hns]
    rw [chainB_congr (fun a _ => nodeNext?_modify_set_kv key val a)
      (fun b _ => nodePrev?_modify_set_kv key val b)
      (nodePrev?_modify_set_kv key val W)]
    exact hcyc2
  have hmap : mapInsert (mapDelete l.cacheMap nd2.key) key W =
      (key, W) :: mapDelete l.cacheMap nd2.key := by
    rw [mapInsert, mapDelete_eq_self (m := mapDelete l.cacheMap nd2.key)
      (by rw [mapLookup_delete_ne _ (fun he => hkeyne he.symm)]; exact hlook)]
  refine ⟨hcache, hnd, ?_, hchainNew, ?_, ?_, ?_, ?_⟩
  · intro j hj
    show j < ns.length
    rw [hlen]
    exact hbound j hj
  · intro p hp
    rw [hmap] at hp
    rcases List.mem_cons.mp hp with he | hx
    · rw [he]
      refine ⟨hWmem, ?_⟩
      show nodeKey? ns W = some key
      unfold nodeKey?
      rw [hnsW]
      rfl
    · obtain ⟨hpm, hpne⟩ := mem_mapDelete hx
      refine ⟨(hm1 p hpm).1, ?_⟩
      have hp2W : p.2 ≠ W := by
        intro he
        have h2 := (hm1 p hpm).2
        rw [he] at h2
        unfold nodeKey? at h2
        rw [hW0] at h2
        exact hpne (Option.some.inj h2).symm
      show nodeKey? ns p.2 = some p.1
      unfold nodeKey?
      rw [hnsother p.2 hp2W]
      exact (hm1 p hpm).2
  · intro j hj
    rcases List.mem_cons.mp hj with he | hx
    · rw [he]
      show (ns[W]?).bind _ = some W
      rw [hnsW]
      simp only [Option.some_bind]
      exact mapLookup_insert_self _ key W
    · have hjW : j ≠ W := fun he2 => (List.nodup_cons.mp hnd).1 (he2 ▸ hx)
      show (ns[j]?).bind _ = some j
      rw [hnsother j hjW]
      have hj2 := hm2 j (List.mem_cons_of_mem W hx)
      obtain ⟨nd, hndq⟩ := isSome_getElem? (hbound j (List.mem_cons_of_mem W hx))
      rw [hndq] at hj2 ⊢
      simp only [Option.some_bind] at hj2 ⊢
      have hkne1 : nd.key ≠ key := by
        intro he2
        rw [he2, hlook] at hj2
        exact Option.noConfusion hj2
      have hkne2 : nd.key ≠ nd2.key := by
        intro he2
        rw [he2, hlookW] at hj2
        exact hjW (Option.some.inj hj2).symm
      rw [mapLookup_insert_ne _ _ hkne1, mapLookup_delete_ne _ hkne2]
      exact hj2
  · rw [hmap]
    have h2 := nodup_fst_mapDelete nd2.key hm3
    refine List.nodup_cons.mpr ⟨?_, h2⟩
    simp only [List.mem_map]
    rintro ⟨p, hp, hpk⟩
    obtain ⟨hpm, _⟩ := mem_mapDelete hp
    have := mapLookup_eq_none_iff l.cacheMap key |>.mp hlook p hpm
    exact this hpk
  · show (mapInsert (mapDelete l.cacheMap nd2.key) key W).length = (W :: t).length
    rw [hmap, List.length_cons, length_mapDelete_of_lookup hm3 hlookW, hm4]

theorem nodeKey?_modify_set_val {nodes : List (LRUListNode K V)} {m : Nat} (v : V)
    (j : Nat) :
    nodeKey? (modifyNode nodes m (fun nd => { nd with val := v })) j =
      nodeKey? nodes j := by
  unfold nodeKey?
  rw [getElem?_modifyNode]
  by_cases hj : j = m
  · subst hj
    cases hq : nodes[j]? <;> simp
  · simp [hj]

theorem bindLookup_eq_of_key {ns nodes : List (LRUListNode K V)} {j : Nat}
    (m : List (K × Nat)) (h : nodeKey? ns j = nodeKey? nodes j) :
    (ns[j]?).bind (fun nd => mapLookup m nd.key) =
      (nodes[j]?).bind (fun nd => mapLookup m nd.key) := by
  unfold nodeKey? at h
  cases h1 : ns[j]? <;> cases h2 : nodes[j]? <;> rw [h1, h2] at h <;> simp_all

/-- Overwriting the value stored in a live slot leaves the invariant
untouched. -/
theorem setval_reprB {l : LRUList K V} {ids : List Nat} {i : Nat} (val : V)
    (hrep : reprB l ids = true) :
    reprB { l with nodes := modifyNode l.nodes i (fun nd => { nd with val := val }) }
      ids = true := by
  rw [reprB_iff] at hrep ⊢
  obtain ⟨hcache, hnd, hbound, hcyc, hm1, hm2, hm3, hm4⟩ := hrep
  refine ⟨hcache, hnd, ?_, ?_, ?_, ?_, hm3, hm4⟩
  · intro j hj
    show j < (modifyNode l.nodes i _).length
    rw [length_modifyNode]
    exact hbound j hj
  · show isCycle (modifyNode l.nodes i _) ids = true
    unfold isCycle
    rw [chainB_congr (fun a _ => nodeNext?_modify_set_val val a)
      (fun b _ => nodePrev?_modify_set_val val b)
      (nodePrev?_modify_set_val val _)]
    exact hcyc
  · intro p hp
    refine ⟨(hm1 p hp).1, ?_⟩
    show nodeKey? (modifyNode l.nodes i _) p.2 = some p.1
    rw [nodeKey?_modify_set_val val p.2]
    exact (hm1 p hp).2
  · intro j hj
    show ((modifyNode l.nodes i _)[j]?).bind _ = some j
    rw [bindLookup_eq_of_key _ (nodeKey?_modify_set_val val j)]
    exact hm2 j hj

/-! Equations describing each branch of the public operations. -/

theorem Set_hit_head {l : LRUList K V} {key : K} {i : Nat}
    (hlook : mapLookup l.cacheMap key = some i) (hcache : l.cache = some i)
    (ev : Option (V → Except E Unit)) (val : V) :
    Set l ev key val = some (.ok (), [],
      { l with nodes := modifyNode l.nodes i (fun nd => { nd with val := val }) }) := by
  unfold Set
  rw [hlook]
  simp only [hcache, eq_self_iff_true, if_true]

theorem Set_hit_promote {l : LRUList K V} {key : K} {i h : Nat}
    {ns : List (LRUListNode K V)}
    (hlook : mapLookup l.cacheMap key = some i) (hcache : l.cache = some h)
    (hne : ¬ l.cache = some i) (hsp : spliceToFront l.nodes h i = some ns)
    (ev : Option (V → Except E Unit)) (val : V) :
    Set l ev key val = some (.ok (), [],
      { l with
        nodes := modifyNode ns i (fun nd => { nd with val := val }),
        cache := some i }) := by
  unfold Set
  rw [hlook]
  simp only [if_neg hne]
  rw [hcache]
  simp only
  rw [hsp]

theorem Set_miss_insert_empty {l : LRUList K V} {key : K}
    (hlook : mapLookup l.cacheMap key = none)
    (hlt : (l.cacheMap.length : Int) < l.cap) (hcache : l.cache = none)
    (ev : Option (V → Except E Unit)) (val : V) :
    Set l ev key val = some (.ok (), [],
      { l with
        cacheMap := mapInsert l.cacheMap key l.nodes.length,
        nodes := l.nodes ++ [⟨key, val, l.nodes.length, l.nodes.length⟩],
        cache := some l.nodes.length }) := by
  unfold Set
  rw [hlook]
  simp only [if_pos hlt]
  rw [hcache]

theorem Set_miss_insert {l : LRUList K V} {key : K} {h : Nat}
    {hn : LRUListNode K V}
    (hlook : mapLookup l.cacheMap key = none)
    (hlt : (l.cacheMap.length : Int) < l.cap) (hcache : l.cache = some h)
    (hh0 : l.nodes[h]? = some hn)
    (ev : Option (V → Except E Unit)) (val : V) :
    Set l ev key val = some (.ok (), [],
      { l with
        cacheMap := mapInsert l.cacheMap key l.nodes.length,
        nodes := modifyNode
          (modifyNode (l.nodes ++ [⟨key, val, hn.prev, h⟩]) hn.prev
            (fun nd => { nd with next := l.nodes.length }))
          h (fun nd => { nd with prev := l.nodes.length }),
        cache := some l.nodes.length }) := by
  unfold Set
  rw [hlook]
  simp only [if_pos hlt]
  rw [hcache]
  simp only
  rw [hh0]

theorem Set_evict_err {l : LRUList K V} {key : K} {h : Nat}
    {hn nd2 : LRUListNode K V} {f : V → Except E Unit} {e : E}
    (hlook : mapLookup l.cacheMap key = none)
    (hnlt : ¬ (l.cacheMap.length : Int) < l.cap) (hcache : l.cache = some h)
    (hh0 : l.nodes[h]? = some hn) (hW0 : l.nodes[hn.prev]? = some nd2)
    (hev : f nd2.val = .error e) (val : V) :
    Set l (some f) key val = some (.error e, [nd2.val],
      { l with cache := some hn.prev }) := by
  unfold Set
  rw [hlook]
  simp only [if_neg hnlt]
  rw [hcache]
  simp only
  rw [hh0]
  simp only
  rw [hW0]
  simp only
  rw [hev]

theorem Set_evict_ok {l : LRUList K V} {key : K} {h : Nat}
    {hn nd2 : LRUListNode K V} {f : V → Except E Unit}
    (hlook : mapLookup l.cacheMap key = none)
    (hnlt : ¬ (l.cacheMap.length : Int) < l.cap) (hcache : l.cache = some h)
    (hh0 : l.nodes[h]? = some hn) (hW0 : l.nodes[hn.prev]? = some nd2)
    (hev : f nd2.val = .ok ()) (val : V) :
    Set l (some f) key val = some (.ok (), [nd2.val],
      { l with
        cache := some hn.prev,
        cacheMap := mapInsert (mapDelete l.cacheMap nd2.key) key hn.prev,
        nodes := modifyNode l.nodes hn.prev
          (fun nd => { nd with key := key, val := val }) }) := by
  unfold Set
  rw [hlook]
  simp only [if_neg hnlt]
  rw [hcache]
  simp only
  rw [hh0]
  simp only
  rw [hW0]
  simp only
  rw [hev]

theorem Set_evict_nil {l : LRUList K V} {key : K} {h : Nat}
    {hn nd2 : LRUListNode K V}
    (hlook : mapLookup l.cacheMap key = none)
    (hnlt : ¬ (l.cacheMap.length : Int) < l.cap) (hcache : l.cache = some h)
    (hh0 : l.nodes[h]? = some hn) (hW0 : l.nodes[hn.prev]? = some nd2)
    (val : V) :
    Set l (none : Option (V → Except E Unit)) key val = some (.ok (), [],
      { l with
        cache := some hn.prev,
        cacheMap := mapInsert (mapDelete l.cacheMap nd2.key) key hn.prev,
        nodes := modifyNode l.nodes hn.prev
          (fun nd => { nd with key := key, val := val }) }) := by
  unfold Set
  rw [hlook]
  simp only [if_neg hnlt]
  rw [hcache]
  simp only
  rw [hh0]
  simp only
  rw [hW0]

theorem Get_hit_head {l : LRUList K V} {key : K} {i : Nat} {nd : LRUListNode K V}
    (hlook : mapLookup l.cacheMap key = some i) (hcache : l.cache = some i)
    (hi0 : l.nodes[i]? = some nd) :
    Get l key = some (.ok nd.val, l) := by
  unfold Get
  rw [hlook]
  simp only [hcache, eq_self_iff_true, if_true]
  rw [hi0]

theorem Get_hit_promote {l : LRUList K V} {key : K} {i h : Nat}
    {ns : List (LRUListNode K V)} {nd : LRUListNode K V}
    (hlook : mapLookup l.cacheMap key = some i) (hcache : l.cache = some h)
    (hne : ¬ l.cache = some i) (hsp : spliceToFront l.nodes h i = some ns)
    (hi2 : ns[i]? = some nd) :
    Get l key = some (.ok nd.val, { l with nodes := ns, cache := some i }) := by
  unfold Get
  rw [hlook]
  simp only [if_neg hne]
  rw [hcache]
  simp only
  rw [hsp]
  simp only
  rw [hi2]

theorem Get_miss {l : LRUList K V} {key : K}
    (hlook : mapLookup l.cacheMap key = none) :
    Get l key = some (.error (), l) := by
  unfold Get
  rw [hlook]

/-- Traverse never modifies the store: whenever it completes, the returned
state is the input state. -/
theorem Traverse_state {l l2 : LRUList K V} {visit : V → Except E Unit}
    {r : Except E Unit} {tr : List V}
    (h : Traverse l visit = some (r, tr, l2)) : l2 = l := by
  unfold Traverse at h
  split at h
  · simp only [Option.some.injEq, Prod.mk.injEq] at h
    exact h.2.2.symm
  · split at h
    · exact Option.noConfusion h
    · split at h
      · simp only [Option.some.injEq, Prod.mk.injEq] at h
        exact h.2.2.symm
      · split at h
        · exact Option.noConfusion h
        · simp only [Option.some.injEq, Prod.mk.injEq] at h
          exact h.2.2.symm

theorem Set_crash_empty {l : LRUList K V} {key : K}
    (hlook : mapLookup l.cacheMap key = none)
    (hnlt : ¬ (l.cacheMap.length : Int) < l.cap) (hcache : l.cache = none)
    (ev : Option (V → Except E Unit)) (val : V) :
    Set l ev key val = none := by
  unfold Set
  rw [hlook]
  simp only [if_neg hnlt]
  rw [hcache]

theorem head_of_reprB {l : LRUList K V} {ids : List Nat} {h : Nat}
    (hrep : reprB l ids = true) (hcache : l.cache = some h) :
    ids = h :: ids.tail := by
  rw [reprB_iff] at hrep
  have h1 := hrep.1
  rw [hcache] at h1
  cases ids with
  | nil => exact Option.noConfusion h1
  | cons a t =>
    have : h = a := Option.some.inj h1
    rw [this]
    rfl

theorem nil_of_reprB {l : LRUList K V} {ids : List Nat}
    (hrep : reprB l ids = true) (hcache : l.cache = none) : ids = [] := by
  rw [reprB_iff] at hrep
  have h1 := hrep.1
  rw [hcache] at h1
  cases ids with
  | nil => rfl
  | cons a t => exact Option.noConfusion h1

theorem mem_ids_of_lookup {l : LRUList K V} {ids : List Nat} {key : K} {i : Nat}
    (hrep : reprB l ids = true) (hlook : mapLookup l.cacheMap key = some i) :
    i ∈ ids := by
  rw [reprB_iff] at hrep
  exact (hrep.2.2.2.2.1 _ (mapLookup_mem hlook)).1

theorem bound_of_reprB {l : LRUList K V} {ids : List Nat} {j : Nat}
    (hrep : reprB l ids = true) (hj : j ∈ ids) : j < l.nodes.length := by
  rw [reprB_iff] at hrep
  exact hrep.2.2.1 j hj

/-- A completed Set call preserves the invariant; the capacity field is
untouched and the number of entries either stays the same or grows by one,
the latter only when the store was strictly under capacity. -/
theorem Set_preserves_reprB {l l' : LRUList K V} {ids : List Nat}
    {ev : Option (V → Except E Unit)} {key : K} {val : V}
    {r : Except E Unit} {tr : List V}
    (hrep : reprB l ids = true) (hrun : Set l ev key val = some (r, tr, l')) :
    ∃ ids', reprB l' ids' = true ∧ l'.cap = l.cap ∧
      (ids'.length = ids.length ∨
        (ids'.length = ids.length + 1 ∧ (l.cacheMap.length : Int) < l.cap)) := by
  cases hlook : mapLookup l.cacheMap key with
  | some i =>
    have hmem : i ∈ ids := mem_ids_of_lookup hrep hlook
    have hcq : ∃ h, l.cache = some h := by
      cases hq : l.cache with
      | none =>
        rw [nil_of_reprB hrep hq] at hmem
        exact absurd hmem (List.not_mem_nil i)
      | some h => exact ⟨h, rfl⟩
    obtain ⟨h, hcache⟩ := hcq
    have hids : ids = h :: ids.tail := head_of_reprB hrep hcache
    by_cases hhead : i = h
    · subst hhead
      rw [Set_hit_head hlook hcache ev val] at hrun
      simp only [Option.some.injEq, Prod.mk.injEq] at hrun
      obtain ⟨rfl, rfl, rfl⟩ := hrun
      exact ⟨ids, setval_reprB val hrep, rfl, Or.inl rfl⟩
    · have hmem_t : i ∈ ids.tail := by
        rw [hids] at hmem
        rcases List.mem_cons.mp hmem with he | hx
        · exact absurd he hhead
        · exact hx
      obtain ⟨ns, hsp, hlen, hkv, hperm, hrep2⟩ := splice_reprB hrep hids hmem_t
      have hne : ¬ l.cache = some i := by
        rw [hcache]
        intro hc
        exact hhead (Option.some.inj hc).symm
      rw [Set_hit_promote hlook hcache hne hsp ev val] at hrun
      simp only [Option.some.injEq, Prod.mk.injEq] at hrun
      obtain ⟨rfl, rfl, rfl⟩ := hrun
      refine ⟨i :: ids.erase i, setval_reprB val hrep2, rfl, Or.inl hperm.length_eq⟩
  | none =>
    by_cases hlt : (l.cacheMap.length : Int) < l.cap
    · cases hcq : l.cache with
      | none =>
        have hids : ids = [] := nil_of_reprB hrep hcq
        subst hids
        rw [Set_miss_insert_empty hlook hlt hcq ev val] at hrun
        simp only [Option.some.injEq, Prod.mk.injEq] at hrun
        obtain ⟨rfl, rfl, rfl⟩ := hrun
        exact ⟨[l.nodes.length], insert_empty_reprB hrep, rfl, Or.inr ⟨rfl, hlt⟩⟩
      | some h =>
        have hids : ids = h :: ids.tail := head_of_reprB hrep hcq
        have hhb : h < l.nodes.length := bound_of_reprB hrep (by
          rw [hids]; exact List.mem_cons_self h _)
        obtain ⟨hn, hh0⟩ := isSome_getElem? hhb
        rw [Set_miss_insert hlook hlt hcq hh0 ev val] at hrun
        simp only [Option.some.injEq, Prod.mk.injEq] at hrun
        obtain ⟨rfl, rfl, rfl⟩ := hrun
        refine ⟨l.nodes.length :: ids, insert_reprB hrep hids hlook hh0, rfl,
          Or.inr ⟨rfl, hlt⟩⟩
    · cases hcq : l.cache with
      | none =>
        rw [Set_crash_empty hlook hlt hcq ev val] at hrun
        exact Option.noConfusion hrun
      | some h =>
        have hids : ids = h :: ids.tail := head_of_reprB hrep hcq
        have hhb : h < l.nodes.length := bound_of_reprB hrep (by
          rw [hids]; exact List.mem_cons_self h _)
        obtain ⟨hn, hh0⟩ := isSome_getElem? hhb
        obtain ⟨hlastW, hpermW, hrepRot⟩ := rotate_reprB hrep hids hh0
        have hWmem : hn.prev ∈ ids := List.mem_of_mem_getLast? hlastW
        have hWb : hn.prev < l.nodes.length := bound_of_reprB hrep hWmem
        obtain ⟨nd2, hW0⟩ := isSome_getElem? hWb
        have hrotlen : (hn.prev :: ids.dropLast).length = ids.length :=
          hpermW.length_eq
        have hfin := evictFinish_reprB (t := ids.dropLast) val hrepRot rfl hW0 hlook
        cases ev with
        | none =>
          rw [Set_evict_nil hlook hlt hcq hh0 hW0 val] at hrun
          simp only [Option.some.injEq, Prod.mk.injEq] at hrun
          obtain ⟨rfl, rfl, rfl⟩ := hrun
          exact ⟨hn.prev :: ids.dropLast, hfin, rfl, Or.inl hrotlen⟩
        | some f =>
          cases hev : f nd2.val with
          | error e =>
            rw [Set_evict_err hlook hlt hcq hh0 hW0 hev val] at hrun
            simp only [Option.some.injEq, Prod.mk.injEq] at hrun
            obtain ⟨rfl, rfl, rfl⟩ := hrun
            exact ⟨hn.prev :: ids.dropLast, hrepRot, rfl, Or.inl hrotlen⟩
          | ok u =>
            cases u
            rw [Set_evict_ok hlook hlt hcq hh0 hW0 hev val] at hrun
            simp only [Option.some.injEq, Prod.mk.injEq] at hrun
            obtain ⟨rfl, rfl, rfl⟩ := hrun
            exact ⟨hn.prev :: ids.dropLast, hfin, rfl, Or.inl hrotlen⟩

/-- A completed Get call preserves the invariant; the map, its length and
the capacity are untouched. -/
theorem Get_preserves_reprB {l l' : LRUList K V} {ids : List Nat}
    {key : K} {res : Except Unit V}
    (hrep : reprB l ids = true) (hrun : Get l key = some (res, l')) :
    ∃ ids', reprB l' ids' = true ∧ l'.cap = l.cap ∧
      ids'.length = ids.length ∧ l'.cacheMap = l.cacheMap := by
  cases hlook : mapLookup l.cacheMap key with
  | some i =>
    have hmem : i ∈ ids := mem_ids_of_lookup hrep hlook
    have hcq : ∃ h, l.cache = some h := by
      cases hq : l.cache with
      | none =>
        rw [nil_of_reprB hrep hq] at hmem
        exact absurd hmem (List.not_mem_nil i)
      | some h => exact ⟨h, rfl⟩
    obtain ⟨h, hcache⟩ := hcq
    have hids : ids = h :: ids.tail := head_of_reprB hrep hcache
    by_cases hhead : i = h
    · subst hhead
      obtain ⟨nd, hi0⟩ := isSome_getElem? (bound_of_reprB hrep hmem)
      rw [Get_hit_head hlook hcache hi0] at hrun
      simp only [Option.some.injEq, Prod.mk.injEq] at hrun
      obtain ⟨rfl, rfl⟩ := hrun
      exact ⟨ids, hrep, rfl, rfl, rfl⟩
    · have hmem_t : i ∈ ids.tail := by
        rw [hids] at hmem
        rcases List.mem_cons.mp hmem with he | hx
        · exact absurd he hhead
        · exact hx
      obtain ⟨ns, hsp, hlen, hkv, hperm, hrep2⟩ := splice_reprB hrep hids hmem_t
      have hne : ¬ l.cache = some i := by
        rw [hcache]
        intro hc
        exact hhead (Option.some.inj hc).symm
      have hib : i < ns.length := by
        rw [hlen]
        exact bound_of_reprB hrep hmem
      obtain ⟨nd, hi2⟩ := isSome_getElem? hib
      rw [Get_hit_promote hlook hcache hne hsp hi2] at hrun
      simp only [Option.some.injEq, Prod.mk.injEq] at hrun
      obtain ⟨rfl, rfl⟩ := hrun
      exact ⟨i :: ids.erase i, hrep2, rfl, hperm.length_eq, rfl⟩
  | none =>
    rw [Get_miss hlook] at hrun
    simp only [Option.some.injEq, Prod.mk.injEq] at hrun
    obtain ⟨rfl, rfl⟩ := hrun
    exact ⟨ids, hrep, rfl, rfl, rfl⟩

/-- Every reachable state satisfies the representation invariant for some
cycle order, and its entry count never exceeds the capacity (or zero when
the capacity is not positive). -/
theorem reachable_inv {l : LRUList K V} (hr : Reachable l) :
    ∃ ids, reprB l ids = true ∧ (l.cacheMap.length : Int) ≤ max l.cap 0 := by
  induction hr with
  | new cap =>
    refine ⟨[], ?_, ?_⟩
    · rw [reprB_iff]
      refine ⟨rfl, List.nodup_nil, ?_, rfl, ?_, ?_, List.nodup_nil, rfl⟩
      · intro j hj
        exact absurd hj (List.not_mem_nil j)
      · intro p hp
        exact absurd hp (List.not_mem_nil p)
      · intro j hj
        exact absurd hj (List.not_mem_nil j)
    · show ((0 : Nat) : Int) ≤ max cap 0
      simp
  | @set l0 l0p E0 ev key val r tr _ hrun ih =>
    obtain ⟨ids, hrep, hle⟩ := ih
    obtain ⟨ids', hrep', hcap, hlen⟩ := Set_preserves_reprB hrep hrun
    refine ⟨ids', hrep', ?_⟩
    rw [reprB_iff] at hrep hrep'
    have e1 := hrep.2.2.2.2.2.2.2
    have e2 := hrep'.2.2.2.2.2.2.2
    rw [hcap, e2]
    rcases hlen with he | ⟨he, hlt⟩
    · rw [he, ← e1]
      exact hle
    · rw [he, ← e1]
      have h0 : (0 : Int) < l0.cap :=
        lt_of_le_of_lt (Int.ofNat_nonneg l0.cacheMap.length) hlt
      rw [max_eq_left (le_of_lt h0)]
      omega
  | @get l0 l0p key r _ hrun ih =>
    obtain ⟨ids, hrep, hle⟩ := ih
    obtain ⟨ids', hrep', hcap, hlen, hmap⟩ := Get_preserves_reprB hrep hrun
    refine ⟨ids', hrep', ?_⟩
    rw [hcap, hmap]
    exact hle
  | @trav l0 l0p E0 visit r tr _ hrun ih =>
    rw [Traverse_state hrun]
    exact ih

theorem length_le_of_nodup_bound {ids : List Nat} {n : Nat} (hnd : ids.Nodup)
    (hb : ∀ x ∈ ids, x < n) : ids.length ≤ n := by
  classical
  have hsub : ids.toFinset ⊆ Finset.range n := by
    intro x hx
    simp only [List.mem_toFinset] at hx
    exact Finset.mem_range.mpr (hb x hx)
  have h2 := Finset.card_le_card hsub
  simpa [List.toFinset_card_of_nodup hnd] using h2

theorem visitSpec_cons_error {visit : V → Except E Unit} {v : V} {e : E}
    (hv : visit v = .error e) (vs : List V) :
    visitSpec visit (v :: vs) = (.error e, [v]) := by
  unfold visitSpec
  rw [hv]

theorem visitSpec_cons_ok {visit : V → Except E Unit} {v : V}
    (hv : visit v = .ok ()) (vs : List V) :
    visitSpec visit (v :: vs) =
      ((visitSpec visit vs).1, v :: (visitSpec visit vs).2) := by
  show (match visit v with
    | Except.error e => ((Except.error e : Except E Unit), [v])
    | Except.ok () => ((visitSpec visit vs).1, v :: (visitSpec visit vs).2)) = _
  rw [hv]

/-- The loop of Traverse, walking the rest of the cycle: it visits exactly
the values of the remaining identifiers in order, following the reference
traversal behavior. -/
theorem traverseLoop_spec {nodes : List (LRUListNode K V)}
    {visit : V → Except E Unit} {h : Nat} {t : List Nat} {fuel : Nat}
    (hch : chainB nodes t h = true) (hh : h ∉ t) (hfuel : t.length < fuel) :
    traverseLoop nodes visit h (t.headD h) fuel =
      some (visitSpec visit (t.filterMap (fun j => (nodes[j]?).map (·.val)))) := by
  induction t generalizing fuel with
  | nil =>
    cases fuel with
    | zero => exact absurd hfuel (Nat.lt_irrefl 0)
    | succ f =>
      show traverseLoop nodes visit h h (f + 1) = _
      unfold traverseLoop
      rw [if_pos rfl]
      rfl
  | cons x t ih =>
    cases fuel with
    | zero => exact absurd hfuel (Nat.not_lt_zero _)
    | succ f =>
      have hxh : x ≠ h := fun he => hh (he ▸ List.mem_cons_self x t)
      have hlink : linkedTo nodes x (t.headD h) = true := chainB_head_link hch
      have hnx := linkedTo_next hlink
      unfold nodeNext? at hnx
      obtain ⟨nd, hnd⟩ : ∃ nd, nodes[x]? = some nd := by
        cases hq : nodes[x]? with
        | none => rw [hq] at hnx; exact Option.noConfusion hnx
        | some nd => exact ⟨nd, rfl⟩
      rw [hnd] at hnx
      have hnext : nd.next = t.headD h := Option.some.inj hnx
      have hvals : (x :: t).filterMap (fun j => (nodes[j]?).map (·.val)) =
          nd.val :: t.filterMap (fun j => (nodes[j]?).map (·.val)) := by
        rw [List.filterMap_cons, hnd]
        rfl
      show traverseLoop nodes visit h x (f + 1) = _
      unfold traverseLoop
      rw [if_neg hxh, hnd]
      simp only
      rw [hvals]
      cases hv : visit nd.val with
      | error e =>
        rw [visitSpec_cons_error hv]
      | ok u =>
        cases u
        show (match traverseLoop nodes visit h nd.next f with
          | none => none
          | some (r, tr) => some (r, nd.val :: tr)) = _
        rw [hnext,
          ih (chainB_tail hch) (fun hx => hh (List.mem_cons_of_mem x hx))
            (Nat.lt_of_succ_lt_succ hfuel),
          visitSpec_cons_ok hv]

/-- Traverse on a well-formed store behaves exactly like the reference
traversal of the abstract value sequence, and leaves the store unchanged. -/
theorem Traverse_spec {l : LRUList K V} {ids : List Nat}
    (visit : V → Except E Unit) (hrep : reprB l ids = true) :
    Traverse l visit = some ((visitSpec visit (absVals l.nodes ids)).1,
      (visitSpec visit (absVals l.nodes ids)).2, l) := by
  rw [reprB_iff] at hrep
  obtain ⟨hcache, hnd, hbound, hcyc, hm1, hm2, hm3, hm4⟩ := hrep
  cases ids with
  | nil =>
    have hcq : l.cache = none := hcache
    unfold Traverse
    rw [hcq]
    rfl
  | cons h t =>
    have hcq : l.cache = some h := hcache
    obtain ⟨hn, hh0⟩ := isSome_getElem? (hbound h (List.mem_cons_self h t))
    have hchain : chainB l.nodes (h :: t) h = true := hcyc
    have hlink : linkedTo l.nodes h (t.headD h) = true := chainB_head_link hchain
    have hnx := linkedTo_next hlink
    unfold nodeNext? at hnx
    rw [hh0] at hnx
    have hnext : hn.next = t.headD h := Option.some.inj hnx
    have hht : h ∉ t := (List.nodup_cons.mp hnd).1
    have hvals : absVals l.nodes (h :: t) =
        hn.val :: t.filterMap (fun j => (l.nodes[j]?).map (·.val)) := by
      unfold absVals
      rw [List.filterMap_cons, hh0]
      rfl
    have hfuel : t.length < l.nodes.length + 1 := by
      have h1 : (h :: t).length ≤ l.nodes.length :=
        length_le_of_nodup_bound hnd hbound
      rw [List.length_cons] at h1
      omega
    unfold Traverse
    rw [hcq]
    simp only
    rw [hh0]
    simp only
    rw [hvals]
    cases hv : visit hn.val with
    | error e =>
      rw [visitSpec_cons_error hv]
    | ok u =>
      cases u
      show (match traverseLoop l.nodes visit h hn.next (l.nodes.length + 1) with
        | none => none
        | some (r, tr) => some (r, hn.val :: tr, l)) = _
      rw [hnext, traverseLoop_spec (chainB_tail hchain) hht hfuel,
        visitSpec_cons_ok hv]

theorem getLast?_filterMap_of_isSome {α β : Type} (g : α → Option β)
    {l : List α} {a : α} {b : β}
    (h : ∀ x ∈ l, (g x).isSome) (hl : l.getLast? = some a) (hb : g a = some b) :
    (l.filterMap g).getLast? = some b := by
  induction l with
  | nil => exact Option.noConfusion hl
  | cons x xs ih =>
    cases xs with
    | nil =>
      have hx : x = a := Option.some.inj hl
      subst hx
      rw [List.filterMap_cons, hb]
      rfl
    | cons y ys =>
      have hl2 : (y :: ys).getLast? = some a := by
        rw [← List.getLast?_cons_cons]
        exact hl
      have ih2 := ih (fun z hz => h z (List.mem_cons_of_mem x hz)) hl2
      rw [List.filterMap_cons]
      cases hg : g x with
      | none => exact ih2
      | some bx =>
        have hne : (y :: ys).filterMap g ≠ [] := by
          intro he
          have hmem : a ∈ y :: ys := List.mem_of_mem_getLast? hl2
          have : (g a).isSome := h a (List.mem_cons_of_mem x hmem)
          obtain ⟨ba, hba⟩ := Option.isSome_iff_exists.mp this
          have : ba ∈ (y :: ys).filterMap g :=
            List.mem_filterMap.mpr ⟨a, hmem, hba⟩
          rw [he] at this
          exact List.not_mem_nil ba this
        obtain ⟨z, zs, hzz⟩ := List.exists_cons_of_ne_nil hne
        show (bx :: List.filterMap g (y :: ys)).getLast? = some b
        rw [hzz, List.getLast?_cons_cons]
        rw [hzz] at ih2
        exact ih2

/-! The claims.  Each statement quantifies over stores through the
representation invariant reprB, which is the decidable well-formedness
predicate every reachable store satisfies (reachable_inv). -/

/-- C1, as written in the specification, is false on this code: the
eviction branch of Set moves the head to its predecessor before invoking
the callback and does not restore it on failure.  On the concrete
two-entry store at capacity, a Set of the absent key 30 with an
always-failing callback propagates the failure and leaves the index
untouched, yet the head reference has moved from slot 1 to slot 0. -/
theorem C1_counterexample :
    Set exState (some failEv) 30 3 =
      some (Except.error (), [1], { exState with cache := some 0 }) ∧
    exState.cache = some 1 ∧
    ({ exState with cache := some 0 } : LRUList Nat Nat) ≠ exState := by
  refine ⟨rfl, rfl, ?_⟩
  intro he
  have := congrArg LRUList.cache he
  simp [exState] at this

/-- C1 (amended): when Set on an absent key at capacity runs an eviction
callback that fails, the failure is propagated verbatim, the index and
every slot (keys, values, links) are exactly as before the call, and the
callback saw exactly the tail value once; the only change is that the head
reference has moved to the previously least-recently-used slot. -/
theorem C1_failed_eviction_state {l : LRUList K V} {key : K} {h : Nat}
    {hn nd2 : LRUListNode K V} {f : V → Except E Unit} {e : E} (val : V)
    (hlook : mapLookup l.cacheMap key = none)
    (hnlt : ¬ (l.cacheMap.length : Int) < l.cap)
    (hcache : l.cache = some h)
    (hh0 : l.nodes[h]? = some hn) (hW0 : l.nodes[hn.prev]? = some nd2)
    (hev : f nd2.val = .error e) :
    Set l (some f) key val =
      some (.error e, [nd2.val], { l with cache := some hn.prev }) :=
  Set_evict_err hlook hnlt hcache hh0 hW0 hev val

/-- Witness for C1 at the concrete store: the amended statement holds
with the head moving from slot 1 to slot 0. -/
theorem C1_failed_eviction_state_witness :
    Set exState (some failEv) 30 3 =
      some (Except.error (), [1], { exState with cache := some 0 }) :=
  @C1_failed_eviction_state Nat Nat Unit _ exState 30 1 ⟨20, 2, 0, 0⟩
    ⟨10, 1, 1, 1⟩ failEv () 3 rfl (by decide) rfl rfl rfl rfl

/-- C2: on any well-formed store at capacity, if Set of an absent key runs
a failing eviction callback, the failure is propagated and afterwards Get
of the key that would have been evicted (the one in the tail slot of the
recency cycle) still succeeds with its original value, while Get of the
new key fails with the key-not-found error. -/
theorem C2_failed_eviction_get {l : LRUList K V} {ids : List Nat} {key : K}
    {f : V → Except E Unit} {e : E} {j : Nat} {jn : LRUListNode K V} (val : V)
    (hrep : reprB l ids = true)
    (hnlt : ¬ (l.cacheMap.length : Int) < l.cap)
    (hlook : mapLookup l.cacheMap key = none)
    (hlast : ids.getLast? = some j) (hj0 : l.nodes[j]? = some jn)
    (hev : f jn.val = .error e) :
    ∃ l', Set l (some f) key val = some (.error e, [jn.val], l') ∧
      Get l' jn.key = some (.ok jn.val, l') ∧
      Get l' key = some (.error (), l') := by
  obtain ⟨h, hcache⟩ : ∃ h, l.cache = some h := by
    cases hq : l.cache with
    | none =>
      rw [nil_of_reprB hrep hq] at hlast
      exact Option.noConfusion hlast
    | some h => exact ⟨h, rfl⟩
  have hids : ids = h :: ids.tail := head_of_reprB hrep hcache
  have hhb : h < l.nodes.length := bound_of_reprB hrep (by
    rw [hids]; exact List.mem_cons_self h _)
  obtain ⟨hn, hh0⟩ := isSome_getElem? hhb
  obtain ⟨hlastW, hpermW, hrepRot⟩ := rotate_reprB hrep hids hh0
  have hjW : hn.prev = j := by
    rw [hlast] at hlastW
    exact (Option.some.inj hlastW).symm
  have hW0 : l.nodes[hn.prev]? = some jn := by rw [hjW]; exact hj0
  have hrun := Set_evict_err hlook hnlt hcache hh0 hW0 hev val
  refine ⟨{ l with cache := some hn.prev }, hrun, ?_, ?_⟩
  · have hlookjn : mapLookup l.cacheMap jn.key = some j := by
      rw [reprB_iff] at hrep
      have h2 := hrep.2.2.2.2.2.1 j (List.mem_of_mem_getLast? hlast)
      rw [hj0] at h2
      simpa using h2
    refine Get_hit_head (i := j) hlookjn ?_ hj0
    show some hn.prev = some j
    rw [hjW]
  · exact Get_miss hlook

/-- Witness for C2 at the concrete store: key 10 (slot 0, value 1) would
have been evicted; after the failed Set of key 30 it is still readable and
key 30 is absent. -/
theorem C2_failed_eviction_get_witness :
    ∃ l', Set exState (some failEv) 30 3 = some (Except.error (), [1], l') ∧
      Get l' 10 = some (Except.ok 1, l') ∧
      Get l' 30 = some (Except.error (), l') :=
  by
  have hrep : reprB exState [1, 0] = true := by decide
  exact C2_failed_eviction_get 3 hrep (by decide)
    (show mapLookup exState.cacheMap 30 = none from rfl) rfl rfl rfl

/-- C9: construction with a non-positive capacity succeeds without any
guard (the constructor stores the capacity and an empty store verbatim),
and the first Set on that empty store reaches the eviction branch, where
reading head.prev dereferences the nil head: the embedded run yields none,
the crash marker, rather than an error value. -/
theorem C9_nonpositive_capacity (cap : Int) (hcap : cap ≤ 0) (key : K) (val : V)
    (ev : Option (V → Except E Unit)) :
    (NewLRUList (K := K) (V := V) cap).cap = cap ∧
    (NewLRUList (K := K) (V := V) cap).cacheMap = [] ∧
    (NewLRUList (K := K) (V := V) cap).cache = none ∧
    Set (NewLRUList cap) ev key val = none := by
  refine ⟨rfl, rfl, rfl, ?_⟩
  refine Set_crash_empty (l := NewLRUList cap)
    (show mapLookup (NewLRUList (K := K) (V := V) cap).cacheMap key = none from rfl)
    ?_ rfl ev val
  show ¬ ((([] : List (K × Nat)).length : Int) < cap)
  simp only [List.length_nil, Int.ofNat_zero]
  omega

/-- Witness for C9 at capacity zero. -/
theorem C9_nonpositive_capacity_witness :
    (NewLRUList (K := Nat) (V := Nat) 0).cap = 0 ∧
    (NewLRUList (K := Nat) (V := Nat) 0).cacheMap = [] ∧
    (NewLRUList (K := Nat) (V := Nat) 0).cache = none ∧
    Set (NewLRUList 0) (some okEv) 1 2 = none :=
  C9_nonpositive_capacity 0 (by decide) 1 2 (some okEv)

/-- C10: after a failed eviction on a well-formed store at capacity, the
structural invariants still hold: the index is literally unchanged, the
arena (hence every slot and its key) is literally unchanged, and the store
satisfies the representation invariant for the rotated cycle order whose
head is the previously least-recently-used slot, which is therefore now
the most-recently-used entry. -/
theorem C10_failed_eviction_invariants {l : LRUList K V} {ids : List Nat}
    {key : K} {f : V → Except E Unit} {e : E} {j : Nat} {jn : LRUListNode K V}
    (val : V)
    (hrep : reprB l ids = true)
    (hnlt : ¬ (l.cacheMap.length : Int) < l.cap)
    (hlook : mapLookup l.cacheMap key = none)
    (hlast : ids.getLast? = some j) (hj0 : l.nodes[j]? = some jn)
    (hev : f jn.val = .error e) :
    ∃ l', Set l (some f) key val = some (.error e, [jn.val], l') ∧
      l'.cacheMap = l.cacheMap ∧ l'.nodes = l.nodes ∧ l'.cache = some j ∧
      reprB l' (j :: ids.dropLast) = true := by
  obtain ⟨h, hcache⟩ : ∃ h, l.cache = some h := by
    cases hq : l.cache with
    | none =>
      rw [nil_of_reprB hrep hq] at hlast
      exact Option.noConfusion hlast
    | some h => exact ⟨h, rfl⟩
  have hids : ids = h :: ids.tail := head_of_reprB hrep hcache
  have hhb : h < l.nodes.length := bound_of_reprB hrep (by
    rw [hids]; exact List.mem_cons_self h _)
  obtain ⟨hn, hh0⟩ := isSome_getElem? hhb
  obtain ⟨hlastW, hpermW, hrepRot⟩ := rotate_reprB hrep hids hh0
  have hjW : hn.prev = j := by
    rw [hlast] at hlastW
    exact (Option.some.inj hlastW).symm
  have hW0 : l.nodes[hn.prev]? = some jn := by rw [hjW]; exact hj0
  refine ⟨{ l with cache := some hn.prev },
    Set_evict_err hlook hnlt hcache hh0 hW0 hev val, rfl, rfl, ?_, ?_⟩
  · show some hn.prev = some j
    rw [hjW]
  · rw [← hjW]
    exact hrepRot

/-- Witness for C10 at the concrete store. -/
theorem C10_failed_eviction_invariants_witness :
    ∃ l', Set exState (some failEv) 30 3 = some (Except.error (), [1], l') ∧
      l'.cacheMap = exState.cacheMap ∧ l'.nodes = exState.nodes ∧
      l'.cache = some 0 ∧ reprB l' [0, 1] = true :=
  by
  have hrep : reprB exState [1, 0] = true := by decide
  exact C10_failed_eviction_invariants 3 hrep (by decide)
    (show mapLookup exState.cacheMap 30 = none from rfl) rfl rfl rfl

/-- C3: from a store constructed with positive capacity, after any
sequence of completed Set, Get and Traverse calls, the number of indexed
keys is at most the capacity, the slots form a single cycle through
exactly as many slots as indexed keys (the content of reprB together with
the length equation), and the head is absent exactly when the store holds
zero entries. -/
theorem C3_invariants {l : LRUList K V} (hr : Reachable l) (hpos : 0 < l.cap) :
    ∃ ids : List Nat, reprB l ids = true ∧
      (l.cacheMap.length : Int) ≤ l.cap ∧
      ids.length = l.cacheMap.length ∧
      (l.cache = none ↔ l.cacheMap.length = 0) := by
  obtain ⟨ids, hrep, hle⟩ := reachable_inv hr
  have hlen : l.cacheMap.length = ids.length := by
    rw [reprB_iff] at hrep
    exact hrep.2.2.2.2.2.2.2
  refine ⟨ids, hrep, ?_, hlen.symm, ?_⟩
  · rwa [max_eq_left (le_of_lt hpos)] at hle
  · constructor
    · intro hc
      rw [hlen, nil_of_reprB hrep hc]
      rfl
    · intro hc
      rw [hlen] at hc
      have hnil : ids = [] := List.length_eq_zero.mp hc
      rw [reprB_iff] at hrep
      rw [hrep.1, hnil]
      rfl

/-- Witness for C3: the two-entry store is reachable from NewLRUList 2 by
two Set calls, and the invariants hold on it. -/
theorem C3_invariants_witness :
    ∃ ids : List Nat, reprB exState ids = true ∧
      (exState.cacheMap.length : Int) ≤ exState.cap ∧
      ids.length = exState.cacheMap.length ∧
      (exState.cache = none ↔ exState.cacheMap.length = 0) :=
  C3_invariants
    (Reachable.set (none : Option (Nat → Except Unit Unit)) 20 2 (.ok ()) []
      (Reachable.set (none : Option (Nat → Except Unit Unit)) 10 1 (.ok ()) []
        (Reachable.new 2) rfl) rfl)
    (by decide)

/-- C4: on any well-formed store at capacity, when Set of an absent key
triggers an eviction whose callback succeeds, the entry handed to the
callback and removed from the index is exactly the last entry of the
abstract recency order, i.e. the least-recently-touched key among the
currently stored keys, and the new key now maps to that slot. -/
theorem C4_evicts_lru {l : LRUList K V} {ids : List Nat} {key : K}
    {f : V → Except E Unit} {j : Nat} {jn : LRUListNode K V} (val : V)
    (hrep : reprB l ids = true)
    (hnlt : ¬ (l.cacheMap.length : Int) < l.cap)
    (hlook : mapLookup l.cacheMap key = none)
    (hlast : ids.getLast? = some j) (hj0 : l.nodes[j]? = some jn)
    (hev : f jn.val = .ok ()) :
    ∃ l', Set l (some f) key val = some (.ok (), [jn.val], l') ∧
      (absList l.nodes ids).getLast? = some (jn.key, jn.val) ∧
      mapLookup l'.cacheMap jn.key = none ∧
      mapLookup l'.cacheMap key = some j := by
  obtain ⟨h, hcache⟩ : ∃ h, l.cache = some h := by
    cases hq : l.cache with
    | none =>
      rw [nil_of_reprB hrep hq] at hlast
      exact Option.noConfusion hlast
    | some h => exact ⟨h, rfl⟩
  have hids : ids = h :: ids.tail := head_of_reprB hrep hcache
  have hhb : h < l.nodes.length := bound_of_reprB hrep (by
    rw [hids]; exact List.mem_cons_self h _)
  obtain ⟨hn, hh0⟩ := isSome_getElem? hhb
  obtain ⟨hlastW, hpermW, hrepRot⟩ := rotate_reprB hrep hids hh0
  have hjW : hn.prev = j := by
    rw [hlast] at hlastW
    exact (Option.some.inj hlastW).symm
  have hW0 : l.nodes[hn.prev]? = some jn := by rw [hjW]; exact hj0
  have hlookjn : mapLookup l.cacheMap jn.key = some j := by
    rw [reprB_iff] at hrep
    have h2 := hrep.2.2.2.2.2.1 j (List.mem_of_mem_getLast? hlast)
    rw [hj0] at h2
    simpa using h2
  have hkne : jn.key ≠ key := by
    intro he
    rw [he, hlook] at hlookjn
    exact Option.noConfusion hlookjn
  refine ⟨_, Set_evict_ok hlook hnlt hcache hh0 hW0 hev val, ?_, ?_, ?_⟩
  · refine getLast?_filterMap_of_isSome _ ?_ hlast ?_
    · intro x hx
      obtain ⟨nd, hnd⟩ := isSome_getElem? (bound_of_reprB hrep hx)
      unfold nodeKeyVal?
      rw [hnd]
      rfl
    · unfold nodeKeyVal?
      rw [hj0]
      rfl
  · show mapLookup (mapInsert (mapDelete l.cacheMap jn.key) key hn.prev) jn.key = none
    rw [mapLookup_insert_ne _ _ hkne, mapLookup_delete_self]
  · show mapLookup (mapInsert (mapDelete l.cacheMap jn.key) key hn.prev) key = some j
    rw [mapLookup_insert_self, hjW]

/-- Witness for C4 at the concrete store: the least-recently-used entry
(key 10, value 1, slot 0) is the one evicted. -/
theorem C4_evicts_lru_witness :
    ∃ l', Set exState (some okEv) 30 3 = some (Except.ok (), [1], l') ∧
      (absList exState.nodes [1, 0]).getLast? = some (10, 1) ∧
      mapLookup l'.cacheMap 10 = none ∧
      mapLookup l'.cacheMap 30 = some 0 :=
  by
  have hrep : reprB exState [1, 0] = true := by decide
  exact C4_evicts_lru 3 hrep (by decide)
    (show mapLookup exState.cacheMap 30 = none from rfl) rfl rfl rfl

theorem nodeKeyVal?_setval_self {nodes : List (LRUListNode K V)} {i : Nat} {k : K}
    (val : V) (hk : nodeKey? nodes i = some k) :
    nodeKeyVal? (modifyNode nodes i (fun nd => { nd with val := val })) i
      = some (k, val) := by
  unfold nodeKey? at hk
  unfold nodeKeyVal?
  rw [getElem?_modifyNode, if_pos rfl]
  cases hq : nodes[i]? with
  | none => rw [hq] at hk; exact Option.noConfusion hk
  | some nd =>
    rw [hq] at hk
    have hkey : nd.key = k := by
      simp only [Option.map_some', Option.some.injEq] at hk
      exact hk
    show some (nd.key, val) = some (k, val)
    rw [hkey]

/-- C5: Set on an already-present key returns success, never invokes the
eviction callback (the callback trace is empty, for every callback), never
touches the index (so its length is unchanged), promotes the slot holding
the key to the head, and overwrites that slot's value with the new one. -/
theorem C5_update_in_place {l : LRUList K V} {ids : List Nat} {key : K} {i : Nat}
    (ev : Option (V → Except E Unit)) (val : V)
    (hrep : reprB l ids = true)
    (hlook : mapLookup l.cacheMap key = some i) :
    ∃ l', Set l ev key val = some (.ok (), [], l') ∧
      l'.cacheMap = l.cacheMap ∧ l'.cache = some i ∧
      nodeKeyVal? l'.nodes i = some (key, val) := by
  have hmem : i ∈ ids := mem_ids_of_lookup hrep hlook
  have hkey : nodeKey? l.nodes i = some key := by
    rw [reprB_iff] at hrep
    exact (hrep.2.2.2.2.1 _ (mapLookup_mem hlook)).2
  obtain ⟨h, hcache⟩ : ∃ h, l.cache = some h := by
    cases hq : l.cache with
    | none =>
      rw [nil_of_reprB hrep hq] at hmem
      exact absurd hmem (List.not_mem_nil i)
    | some h => exact ⟨h, rfl⟩
  have hids : ids = h :: ids.tail := head_of_reprB hrep hcache
  by_cases hhead : i = h
  · have hcache2 : l.cache = some i := by rw [hcache, hhead]
    exact ⟨_, Set_hit_head hlook hcache2 ev val, rfl, hcache2,
      nodeKeyVal?_setval_self val hkey⟩
  · have hmem_t : i ∈ ids.tail := by
      rw [hids] at hmem
      rcases List.mem_cons.mp hmem with he | hx
      · exact absurd he hhead
      · exact hx
    obtain ⟨ns, hsp, hlen, hkv, hperm, hrep2⟩ := splice_reprB hrep hids hmem_t
    have hne : ¬ l.cache = some i := by
      rw [hcache]
      intro hc
      exact hhead (Option.some.inj hc).symm
    refine ⟨_, Set_hit_promote hlook hcache hne hsp ev val, rfl, rfl, ?_⟩
    exact nodeKeyVal?_setval_self val
      ((nodeKey?_eq_of_keyVal (hkv i)).trans hkey)

/-- Witness for C5 at the concrete store: updating present key 10 with
value 5 promotes slot 0 and stores the new value there. -/
theorem C5_update_in_place_witness :
    ∃ l', Set exState (some failEv) 10 5 = some (Except.ok (), [], l') ∧
      l'.cacheMap = exState.cacheMap ∧ l'.cache = some 0 ∧
      nodeKeyVal? l'.nodes 0 = some (10, 5) :=
  by
  have hrep : reprB exState [1, 0] = true := by decide
  exact C5_update_in_place (some failEv) 5 hrep rfl

/-- C6: Get on a present key returns the value stored in the slot the
index assigns to that key, with no error, and leaves that key's slot as
the head (the most-recently-used entry) with all keys and values in
place; Get on an absent key fails with the key-not-found error and
returns the store exactly as it was. -/
theorem C6_get {l : LRUList K V} {ids : List Nat} (key : K)
    (hrep : reprB l ids = true) :
    (∀ i nd, mapLookup l.cacheMap key = some i → l.nodes[i]? = some nd →
      ∃ l', Get l key = some (.ok nd.val, l') ∧ l'.cache = some i ∧
        l'.cacheMap = l.cacheMap ∧
        (∀ j, nodeKeyVal? l'.nodes j = nodeKeyVal? l.nodes j)) ∧
    (mapLookup l.cacheMap key = none → Get l key = some (.error (), l)) := by
  constructor
  · intro i nd hlook hi0
    have hmem : i ∈ ids := mem_ids_of_lookup hrep hlook
    obtain ⟨h, hcache⟩ : ∃ h, l.cache = some h := by
      cases hq : l.cache with
      | none =>
        rw [nil_of_reprB hrep hq] at hmem
        exact absurd hmem (List.not_mem_nil i)
      | some h => exact ⟨h, rfl⟩
    have hids : ids = h :: ids.tail := head_of_reprB hrep hcache
    by_cases hhead : i = h
    · have hcache2 : l.cache = some i := by rw [hcache, hhead]
      exact ⟨l, Get_hit_head hlook hcache2 hi0, hcache2, rfl, fun j => rfl⟩
    · have hmem_t : i ∈ ids.tail := by
        rw [hids] at hmem
        rcases List.mem_cons.mp hmem with he | hx
        · exact absurd he hhead
        · exact hx
      obtain ⟨ns, hsp, hlen, hkv, hperm, hrep2⟩ := splice_reprB hrep hids hmem_t
      have hne : ¬ l.cache = some i := by
        rw [hcache]
        intro hc
        exact hhead (Option.some.inj hc).symm
      have hkvi := hkv i
      unfold nodeKeyVal? at hkvi
      rw [hi0] at hkvi
      obtain ⟨nd2, hi2⟩ : ∃ nd2, ns[i]? = some nd2 := by
        cases hq : ns[i]? with
        | none => rw [hq] at hkvi; exact Option.noConfusion hkvi
        | some nd2 => exact ⟨nd2, rfl⟩
      rw [hi2] at hkvi
      simp only [Option.map_some', Option.some.injEq, Prod.mk.injEq] at hkvi
      refine ⟨{ l with nodes := ns, cache := some i }, ?_, rfl, rfl, hkv⟩
      rw [Get_hit_promote hlook hcache hne hsp hi2, hkvi.2]
  · intro hlook
    exact Get_miss hlook

/-- Witness for C6 at the concrete store: Get of present key 10 returns 1
and promotes slot 0 to the head. -/
theorem C6_get_witness :
    ∃ l', Get exState 10 = some (Except.ok 1, l') ∧ l'.cache = some 0 ∧
      l'.cacheMap = exState.cacheMap ∧
      (∀ j, nodeKeyVal? l'.nodes j = nodeKeyVal? exState.nodes j) :=
  by
  have hrep : reprB exState [1, 0] = true := by decide
  exact (C6_get 10 hrep).1 0 ⟨10, 1, 1, 1⟩ rfl rfl

/-- C7: Traverse on a well-formed store behaves exactly as the reference
traversal of the abstract value sequence in most-recently-used-first
order: one visit per stored value until the first failing visit, whose
failure is propagated with no further values visited, and the store is
returned unchanged; on an empty store it succeeds with no invocations. -/
theorem C7_traverse {l : LRUList K V} {ids : List Nat} (visit : V → Except E Unit)
    (hrep : reprB l ids = true) :
    Traverse l visit = some ((visitSpec visit (absVals l.nodes ids)).1,
      (visitSpec visit (absVals l.nodes ids)).2, l) ∧
    (l.cache = none → Traverse l visit = some (.ok (), [], l)) := by
  refine ⟨Traverse_spec visit hrep, ?_⟩
  intro hc
  unfold Traverse
  rw [hc]

/-- Witness for C7 at the concrete store with the always-succeeding
visit: the values are visited most recently used first, 2 then 1. -/
theorem C7_traverse_witness :
    Traverse exState okEv = some (Except.ok (), [2, 1], exState) ∧
    (exState.cache = none → Traverse exState okEv = some (.ok (), [], exState)) :=
  by
  have hrep : reprB exState [1, 0] = true := by decide
  exact C7_traverse okEv hrep

theorem Get_crash_nil {l : LRUList K V} {key : K} {i : Nat}
    (hlook : mapLookup l.cacheMap key = some i) (hcache : l.cache = none) :
    Get l key = none := by
  have hne : ¬ l.cache = some i := by
    rw [hcache]
    exact fun hc => Option.noConfusion hc
  unfold Get
  rw [hlook]
  simp only [if_neg hne]
  rw [hcache]

theorem Get_crash_head {l : LRUList K V} {key : K} {i : Nat}
    (hlook : mapLookup l.cacheMap key = some i) (hcache : l.cache = some i)
    (hi : l.nodes[i]? = none) : Get l key = none := by
  unfold Get
  rw [hlook]
  simp only [hcache, eq_self_iff_true, if_true]
  rw [hi]

theorem Get_crash_splice {l : LRUList K V} {key : K} {i h : Nat}
    (hlook : mapLookup l.cacheMap key = some i) (hcache : l.cache = some h)
    (hne : ¬ l.cache = some i) (hsp : spliceToFront l.nodes h i = none) :
    Get l key = none := by
  unfold Get
  rw [hlook]
  simp only [if_neg hne]
  rw [hcache]
  simp only
  rw [hsp]

theorem Get_crash_promoted {l : LRUList K V} {key : K} {i h : Nat}
    {ns : List (LRUListNode K V)}
    (hlook : mapLookup l.cacheMap key = some i) (hcache : l.cache = some h)
    (hne : ¬ l.cache = some i) (hsp : spliceToFront l.nodes h i = some ns)
    (hi2 : ns[i]? = none) : Get l key = none := by
  unfold Get
  rw [hlook]
  simp only [if_neg hne]
  rw [hcache]
  simp only
  rw [hsp]
  simp only
  rw [hi2]

/-- C8: a successful Get is idempotent: running Get again with the same
key on the resulting store succeeds with the same value and returns the
store observably identical, in fact equal. -/
theorem C8_get_idempotent {l l2 : LRUList K V} {key : K} {v : V}
    (h : Get l key = some (.ok v, l2)) : Get l2 key = some (.ok v, l2) := by
  cases hlook : mapLookup l.cacheMap key with
  | none =>
    rw [Get_miss hlook] at h
    simp only [Option.some.injEq, Prod.mk.injEq] at h
    exact absurd h.1 (fun he => Except.noConfusion he)
  | some i =>
    cases hcq : l.cache with
    | none =>
      rw [Get_crash_nil hlook hcq] at h
      exact Option.noConfusion h
    | some hh =>
      by_cases hhead : hh = i
      · have hcache2 : l.cache = some i := by rw [hcq, hhead]
        cases hi : l.nodes[i]? with
        | none =>
          rw [Get_crash_head hlook hcache2 hi] at h
          exact Option.noConfusion h
        | some nd =>
          rw [Get_hit_head hlook hcache2 hi] at h
          simp only [Option.some.injEq, Prod.mk.injEq] at h
          obtain ⟨hv, hl2⟩ := h
          have hvv : nd.val = v := by injection hv
          rw [← hl2, ← hvv]
          exact Get_hit_head hlook hcache2 hi
      · have hne : ¬ l.cache = some i := by
          rw [hcq]
          intro hc
          exact hhead (Option.some.inj hc)
        cases hsp : spliceToFront l.nodes hh i with
        | none =>
          rw [Get_crash_splice hlook hcq hne hsp] at h
          exact Option.noConfusion h
        | some ns =>
          cases hi2 : ns[i]? with
          | none =>
            rw [Get_crash_promoted hlook hcq hne hsp hi2] at h
            exact Option.noConfusion h
          | some nd =>
            rw [Get_hit_promote hlook hcq hne hsp hi2] at h
            simp only [Option.some.injEq, Prod.mk.injEq] at h
            obtain ⟨hv, hl2⟩ := h
            have hvv : nd.val = v := by injection hv
            rw [← hl2, ← hvv]
            exact Get_hit_head (l := { l with nodes := ns, cache := some i })
              hlook rfl hi2

/-- Witness for C8: after Get of key 10 on the concrete store, a second
Get of key 10 returns the same value and the same store. -/
theorem C8_get_idempotent_witness :
    Get ({ exState with cache := some 0 }) 10 =
      some (Except.ok 1, { exState with cache := some 0 }) :=
  C8_get_idempotent (l := exState) rfl

end LRUListSpec
